import Mathlib

/-!
Shallow embedding of the `mtl` repository (Merkle-tree hasher with an
object store, references, metadata cache, GC and diff), together with
theorems settling the frozen claims about its specification.

Source files embedded: `src/lib.rs` / `src/data.rs` / `src/path.rs`
(data model, object store, references, expression resolution),
`src/builder.rs` and `src/builder/parallel.rs` (build pipeline),
`src/cache.rs` (metadata-cache writer loop), `src/commands.rs`
(diff and garbage collection).

Machine integers are modelled as `Nat` with explicit `% 2 ^ 64` where
64-bit overflow matters.  Strings are manipulated through their
character lists so that everything evaluates by kernel reduction.
Fallible Rust code returns `Except`; a Rust `panic!`/`unwrap` failure is
a distinguished outcome value, kept separate from `Result` errors.
-/

namespace Mtl

/-! ### Hashes and hex codec

The `Hash` struct itself (`src/hash.rs` in the released crate) is not
part of the source snapshot; only its callers are.  It is modelled from
the spec below. -/

/-- An object id is a 64-bit hash value, kept as a `Nat` below `2 ^ 64`. -/
abbrev ObjectID := Nat

/-- Modelled from the spec: the missing `Hash::from_contents` is a
"fast, non-cryptographic 64-bit hash (seed 0)"; the exact function is
irrelevant to the claims, so a 64-bit FNV-1a-style fold over the
code points stands in for it.  Only determinism and the 64-bit range
are used. -/
def Hash.from_contents (s : String) : ObjectID :=
  s.data.foldl (fun h c => ((h ^^^ c.toNat) * 1099511628211) % 2 ^ 64) 14695981039346656037

/-- Hex digit for a value below 16, lowercase (`0`-`9`, `a`-`f`). -/
def hexDigitChar (n : Nat) : Char :=
  if n < 10 then Char.ofNat (48 + n) else Char.ofNat (87 + n)

/-- Big-endian hex rendering, `k` digits. -/
def toHexAux : Nat → Nat → List Char
  | 0, _ => []
  | k + 1, n => toHexAux k (n / 16) ++ [hexDigitChar (n % 16)]

/-- Modelled from the spec: object ids render as exactly 16 lowercase,
zero-padded hexadecimal characters. -/
def Hash.to_hex (n : ObjectID) : String := ⟨toHexAux 16 n⟩

/-- Value of one hex character (lowercase letters only, as rendered). -/
def hexDigitVal (c : Char) : Option Nat :=
  if 48 ≤ c.toNat ∧ c.toNat ≤ 57 then some (c.toNat - 48)
  else if 97 ≤ c.toNat ∧ c.toNat ≤ 102 then some (c.toNat - 87)
  else none

/-- Accumulating hex parse over a character list. -/
def parseHexAcc (a : Nat) : List Char → Option Nat
  | [] => some a
  | c :: cs =>
    match hexDigitVal c with
    | some d => parseHexAcc (a * 16 + d) cs
    | none => none

/-- Error taxonomy of `src/error.rs` (plus the two variants that
`src/builder.rs` references). -/
inductive ParseError where
  | emptyToken
  | invalidToken (s : String)
  | invalidHash (s : String)
deriving DecidableEq

/-- Modelled from the spec: the missing `Hash::from_hex` accepts exactly
the 16-character lowercase rendering and round-trips it ("round-trips
through its 16-char form"). -/
def Hash.from_hex (s : String) : Except ParseError ObjectID :=
  if s.data.length = 16 then
    match parseHexAcc 0 s.data with
    | some n => .ok n
    | none => .error (.invalidHash s)
  else .error (.invalidHash s)

/-- `io::ErrorKind`, reduced to the two cases the embedding distinguishes. -/
inductive IOErrorKind where
  | notFound
  | other
deriving DecidableEq

/-- `ReadContentError` from `src/error.rs`; `targetEmpty` and
`absolutePathNotSupported` are the variants referenced by
`src/builder.rs`. -/
inductive ReadContentError where
  | objectNotFound
  | ioError (kind : IOErrorKind)
  | parse (e : ParseError)
  | fromUtf8
  | targetEmpty
  | absolutePathNotSupported
deriving DecidableEq

/-! ### Relative paths (`src/path.rs`)

A `RelativePath` is the root or a `PathBuf`, modelled as its list of
components (Rust `Path` equality, ordering and `file_name` are all
component-wise). -/

inductive RelativePath where
  | root
  | path (components : List String)
deriving DecidableEq

def RelativePath.is_root : RelativePath → Bool
  | .root => true
  | .path _ => false

/-- `parent`: `Root` is its own parent; a one-component (or empty) path's
parent is `Root`; otherwise drop the last component. -/
def RelativePath.parent : RelativePath → RelativePath
  | .root => .root
  | .path cs => if cs.length ≤ 1 then .root else .path cs.dropLast

/-- `file_name`: the last component, none for `Root` or the empty path. -/
def RelativePath.file_name : RelativePath → Option String
  | .root => none
  | .path cs => cs.getLast?

def RelativePath.join : RelativePath → List String → RelativePath
  | .root, cs => .path cs
  | .path a, cs => .path (a ++ cs)

def RelativePath.depth : RelativePath → Nat
  | .root => 0
  | .path cs => cs.length

/-! Orderings, as `Ordering`-valued comparators mirroring the `Ord`
impls (byte order on strings, component-wise on paths). -/

def charCmp (a b : Char) : Ordering :=
  if a.toNat < b.toNat then .lt else if b.toNat < a.toNat then .gt else .eq

def charsCmp : List Char → List Char → Ordering
  | [], [] => .eq
  | [], _ :: _ => .lt
  | _ :: _, [] => .gt
  | a :: as', b :: bs' =>
    match charCmp a b with
    | .eq => charsCmp as' bs'
    | o => o

def strCmp (a b : String) : Ordering := charsCmp a.data b.data

def strsCmp : List String → List String → Ordering
  | [], [] => .eq
  | [], _ :: _ => .lt
  | _ :: _, [] => .gt
  | a :: as', b :: bs' =>
    match strCmp a b with
    | .eq => strsCmp as' bs'
    | o => o

/-- `impl Ord for RelativePath`: `Root` below every non-root path,
non-root paths component-wise. -/
def RelativePath.cmp : RelativePath → RelativePath → Ordering
  | .root, .root => .eq
  | .root, .path _ => .lt
  | .path _, .root => .gt
  | .path a, .path b => strsCmp a b

/-! ### Objects (`src/data.rs`) -/

inductive ObjectKind where
  | tree
  | file
deriving DecidableEq

def ObjectKind.render : ObjectKind → String
  | .tree => "tree"
  | .file => "file"

def object_kind_from_str (s : String) : Except ParseError ObjectKind :=
  if s = "tree" then .ok .tree
  else if s = "file" then .ok .file
  else if s = "" then .error .emptyToken
  else .error (.invalidToken s)

/-- A tree entry: kind, id, and the `basename` field.  As in the source
the field is a whole `RelativePath`: file objects built by the pipeline
carry a single component, tree objects built by the pipeline carry the
directory's full relative path. -/
structure Object where
  kind : ObjectKind
  id : ObjectID
  basename : RelativePath
deriving DecidableEq

def Object.new (kind : ObjectKind) (id : ObjectID) (cs : List String) : Object :=
  ⟨kind, id, .path cs⟩

def Object.new_file (id : ObjectID) (name : String) : Object :=
  Object.new .file id [name]

/-- `Object::new_tree(id, path)` where `path` is the entry's
`RelativePath` (the `Root` branch passes the empty `PathBuf`). -/
def Object.new_tree (id : ObjectID) (p : RelativePath) : Object :=
  Object.new .tree id (match p with | .root => [] | .path cs => cs)

def Object.is_tree (o : Object) : Bool := o.kind = ObjectKind.tree

def Object.is_file (o : Object) : Bool := o.kind = ObjectKind.file

/-- `impl Ord for Object`: compare the `basename` fields. -/
def Object.cmp (a b : Object) : Ordering := a.basename.cmp b.basename

/-- The basename printed by `Display for Object`:
`file_path.file_name().unwrap_or_default()`. -/
def Object.display_name (o : Object) : String := (o.basename.file_name).getD ""

/-- One serialized line: `kind\tobject_id\tbasename` (the newline is
added by `writeln!`). -/
def Object.render_line (o : Object) : List Char :=
  o.kind.render.data ++ '\t' :: (Hash.to_hex o.id).data ++ '\t' :: o.display_name.data

/-- `serialize_entries`: one line per entry, newline-terminated.  As in
the source it does not sort; callers pass sorted entries. -/
def serialize_entries (entries : List Object) : String :=
  ⟨(entries.map (fun o => o.render_line ++ ['\n'])).flatten⟩

/-- Insertion sort with a boolean "less or equal"; stands in for the
source's comparison sorts (`.sorted()`, `par_sort_unstable`). -/
def insertOrdered (le : α → α → Bool) (a : α) : List α → List α
  | [] => [a]
  | x :: xs => if le a x then a :: x :: xs else x :: insertOrdered le a xs

def sortBy (le : α → α → Bool) : List α → List α
  | [] => []
  | x :: xs => insertOrdered le x (sortBy le xs)

def Object.leB (a b : Object) : Bool :=
  match Object.cmp a b with
  | .gt => false
  | _ => true

/-- Sorting a directory's children before serialization (by `Ord for
Object`, i.e. by the stored `basename` path). -/
def sortObjects : List Object → List Object := sortBy Object.leB

/-! ### Character-list utilities standing in for `str` operations -/

def splitOnChar (sep : Char) : List Char → List (List Char)
  | [] => [[]]
  | c :: cs =>
    if c = sep then [] :: splitOnChar sep cs
    else
      match splitOnChar sep cs with
      | [] => [[c]]
      | p :: ps => (c :: p) :: ps

/-- Rust `str::lines`: split on `\n`, dropping a final empty piece. -/
def rust_lines (s : String) : List String :=
  let ps := splitOnChar '\n' s.data
  (if ps.getLast? = some [] then ps.dropLast else ps).map fun cs => ⟨cs⟩

/-- `Path::components` of a string path: split on `/`, dropping empty
components. -/
def path_components (s : String) : List String :=
  ((splitOnChar '/' s.data).filter (· ≠ [])).map fun cs => ⟨cs⟩

def isWsChar (c : Char) : Bool :=
  c = ' ' ∨ c = '\n' ∨ c = '\t' ∨ c = '\r'

/-- Rust `str::trim`, on the character list. -/
def trim_string (s : String) : String :=
  ⟨((s.data.dropWhile isWsChar).reverse.dropWhile isWsChar).reverse⟩

/-- `str::splitn(2, ':')`: the part before the first colon, and the
rest if a colon occurs. -/
def splitnColon : List Char → List Char × Option (List Char)
  | [] => ([], none)
  | c :: cs =>
    if c = ':' then ([], some cs)
    else
      let (a, b) := splitnColon cs
      (c :: a, b)

/-! ### Object store and repository context (`src/lib.rs`) -/

/-- The loose (or packed) store: object id to stored payload.  A write
with an existing key overwrites the file. -/
abbrev Store := List (ObjectID × String)

def store_lookup (st : Store) (id : ObjectID) : Option String :=
  (st.find? (fun pr => pr.1 = id)).map (·.2)

def store_insert : Store → ObjectID → String → Store
  | [], i, p => [(i, p)]
  | (k, v) :: rest, i, p =>
    if k = i then (k, p) :: rest else (k, v) :: store_insert rest i p

def store_erase (st : Store) (id : ObjectID) : Store :=
  st.filter (fun pr => pr.1 ≠ id)

/-- File metadata as the build consumes it: `modified()` in microseconds
since the epoch, and `len()`. -/
structure FileStat where
  mtime : Nat
  size : Nat
deriving DecidableEq

/-- `CacheValue` (`src/cache.rs`). -/
structure CacheValue where
  mtime : Nat
  size : Nat
  object_id : ObjectID
deriving DecidableEq

/-- The repository context: loose and packed stores, reference files
(name to file contents), the `HEAD` file contents, the metadata cache
as read by the build, and the target file system (path to stat and
contents) that the build hashes. -/
structure Context where
  loose : Store
  packed : Option Store
  refs : List (String × String)
  head : Option String
  cache : RelativePath → Option CacheValue
  world : List (RelativePath × FileStat × String)

def Context.read_cache (ctx : Context) (key : RelativePath) : Option CacheValue :=
  ctx.cache key

def Context.stat_file (ctx : Context) (p : RelativePath) : Option (FileStat × String) :=
  (ctx.world.find? (fun e => e.1 = p)).map (·.2)

/-- `Context::read_object`: loose layer first, then the packed table,
else `ObjectNotFound`. -/
def Context.read_object (ctx : Context) (id : ObjectID) : Except ReadContentError String :=
  match store_lookup ctx.loose id with
  | some contents => .ok contents
  | none =>
    match ctx.packed with
    | none => .error .objectNotFound
    | some packed =>
      match store_lookup packed id with
      | some v => .ok v
      | none => .error .objectNotFound

/-- `Context::list_object_ids`: ids of both layers, deduplicated. -/
def Context.list_object_ids (ctx : Context) : List ObjectID :=
  (ctx.loose.map (·.1) ++ (ctx.packed.getD []).map (·.1)).dedup

/-- Parse one line of a tree payload: three `\t`-separated tokens
(kind, id, basename); missing tokens are `EmptyToken` errors. -/
def parse_tree_line (line : String) : Except ReadContentError Object :=
  match splitOnChar '\t' line.data with
  | t0 :: t1 :: t2 :: _ => do
    let kind ← (object_kind_from_str ⟨t0⟩).mapError ReadContentError.parse
    let id ← (Hash.from_hex ⟨t1⟩).mapError ReadContentError.parse
    .ok (Object.new kind id (path_components ⟨t2⟩))
  | _ => .error (.parse .emptyToken)

/-- `Context::read_tree_contents`: read the payload and parse each
line. -/
def Context.read_tree_contents (ctx : Context) (id : ObjectID) :
    Except ReadContentError (List Object) := do
  let contents ← ctx.read_object id
  (rust_lines contents).mapM parse_tree_line

/-- `Context::write_tree_contents`: serialize, hash, store; returns the
id.  The store is threaded explicitly. -/
def write_tree_contents (st : Store) (entries : List Object) : ObjectID × Store :=
  let tree_contents := serialize_entries entries
  let object_id := Hash.from_contents tree_contents
  (object_id, store_insert st object_id tree_contents)

/-! ### References and expression resolution (`src/lib.rs`) -/

def refs_lookup (refs : List (String × String)) (name : String) : Option String :=
  (refs.find? (fun pr => pr.1 = name)).map (·.2)

def refs_insert : List (String × String) → String → String → List (String × String)
  | [], n, c => [(n, c)]
  | (k, v) :: rest, n, c =>
    if k = n then (k, c) :: rest else (k, v) :: refs_insert rest n c

def refs_erase (refs : List (String × String)) (name : String) : List (String × String) :=
  refs.filter (fun pr => pr.1 ≠ name)

inductive ObjectRef where
  | reference (name : String)
  | id (object_id : ObjectID)
deriving DecidableEq

/-- `FromStr for ObjectRef`: a valid 16-hex string is an id, anything
else is a reference name. -/
def object_ref_from_str (s : String) : ObjectRef :=
  match Hash.from_hex s with
  | .ok n => .id n
  | .error _ => .reference s

/-- `Context::read_head`: the trimmed `HEAD` file contents parsed as an
id; a missing file is an IO `NotFound`. -/
def Context.read_head (ctx : Context) : Except ReadContentError ObjectID :=
  match ctx.head with
  | none => .error (.ioError .notFound)
  | some s => (Hash.from_hex (trim_string s)).mapError ReadContentError.parse

/-- `Context::deref_object_ref`. -/
def Context.deref_object_ref (ctx : Context) (oref : ObjectRef) :
    Except ReadContentError ObjectID :=
  match oref with
  | .reference name =>
    if name = "HEAD" then ctx.read_head
    else
      match refs_lookup ctx.refs name with
      | none => .error (.ioError .notFound)
      | some contents => (Hash.from_hex (trim_string contents)).mapError ReadContentError.parse
  | .id object_id => .ok object_id

/-- `Context::write_object_ref`: write the id's 16-hex rendering into
the named reference file. -/
def Context.write_object_ref (ctx : Context) (name : String) (id : ObjectID) : Context :=
  { ctx with refs := refs_insert ctx.refs name (Hash.to_hex id) }

/-- `Context::delete_object_ref`: `fs::remove_file`, which fails with a
`NotFound` IO error when the file does not exist. -/
def Context.delete_object_ref (ctx : Context) (name : String) :
    Except ReadContentError Context :=
  match refs_lookup ctx.refs name with
  | none => .error (.ioError .notFound)
  | some _ => .ok { ctx with refs := refs_erase ctx.refs name }

/-- `Context::inner_search_object_with_routes`: descend the stored tree
objects one path component at a time; an entry matches when its
`file_name` equals the component exactly (entries without a file name
are skipped); the matched ids are accumulated deepest-first. -/
def Context.inner_search (ctx : Context) (oref : ObjectRef) :
    List String → Except ReadContentError (List ObjectID)
  | [] => .ok []
  | c :: rest => do
    let object ← ctx.deref_object_ref oref
    let contents ← ctx.read_tree_contents object
    match contents.find? (fun o => o.basename.file_name = some c) with
    | some o => do
      let results ← ctx.inner_search (.id o.id) rest
      .ok (results ++ [o.id])
    | none => .error .objectNotFound

/-- `Context::search_object`: the head of the routes, `ObjectNotFound`
when they are empty. -/
def Context.search_object (ctx : Context) (base : ObjectRef) (comps : List String) :
    Except ReadContentError ObjectID := do
  let routes ← ctx.inner_search base comps
  match routes with
  | [] => .error .objectNotFound
  | r :: _ => .ok r

/-- Modelled from the spec: `"<base>:p1/p2/.../pn"` resolution "returns
the id obtained by descending stored tree objects from the base,
matching each path component against entry basenames by exact byte
equality, and returns NotFound if at any step no entry matches the
component".  Stated as a direct descent, for comparison with the
route-accumulating implementation. -/
def Context.resolve_spec (ctx : Context) (id : ObjectID) :
    List String → Except ReadContentError ObjectID
  | [] => .ok id
  | c :: rest => do
    let contents ← ctx.read_tree_contents id
    match contents.find? (fun o => o.basename.file_name = some c) with
    | some o => ctx.resolve_spec o.id rest
    | none => .error .objectNotFound

/-- `ObjectExpr`: base reference plus optional subpath. -/
structure ObjectExpr where
  object_ref : ObjectRef
  path : Option String
deriving DecidableEq

/-- `FromStr for ObjectExpr`: split on the first `:`; an empty right
side is no path at all. -/
def object_expr_from_str (s : String) : ObjectExpr :=
  let (r, rest) := splitnColon s.data
  { object_ref := object_ref_from_str ⟨r⟩
    path :=
      match rest with
      | none => none
      | some p => if p = [] then none else some ⟨p⟩ }

/-- `ObjectExpr::resolve`. -/
def ObjectExpr.resolve (e : ObjectExpr) (ctx : Context) : Except ReadContentError ObjectID :=
  match e.path with
  | some p => ctx.search_object e.object_ref (path_components p)
  | none => ctx.deref_object_ref e.object_ref

/-! ### Build pipeline (`src/builder.rs`, `src/builder/parallel.rs`)

The rayon fold/reduce over disjoint inputs is modelled as a sequential
fold in input order; merges concatenate child lists exactly as
`merge_hashmap` does.  A Rust panic (`expect` on a failed file read,
the final `unwrap` on the root key) is a distinguished outcome. -/

/-- `FileEntry`: kind, relative path, depth. -/
structure FileEntry where
  mode : ObjectKind
  path : RelativePath
  depth : Nat
deriving DecidableEq

/-- `TargetEntries`. -/
structure TargetEntries where
  max_depth : Nat
  files : List FileEntry
  num_files : Nat
  num_dirs : Nat

/-- The per-directory children map `HashMap<RelativePath, Vec<Object>>`. -/
abbrev ObjMap := List (RelativePath × List Object)

def objmap_lookup (m : ObjMap) (k : RelativePath) : Option (List Object) :=
  (m.find? (fun pr => pr.1 = k)).map (·.2)

/-- `acc.entry(k).or_default().extend(vs)`. -/
def objmap_extend : ObjMap → RelativePath → List Object → ObjMap
  | [], k, vs => [(k, vs)]
  | (k', os) :: rest, k, vs =>
    if k' = k then (k', os ++ vs) :: rest else (k', os) :: objmap_extend rest k vs

def objmap_push (m : ObjMap) (k : RelativePath) (o : Object) : ObjMap :=
  objmap_extend m k [o]

/-- `merge_hashmap`: fold the second map into the first, concatenating
value lists. -/
def merge_hashmap (m1 m2 : ObjMap) : ObjMap :=
  m2.foldl (fun acc pr => objmap_extend acc pr.1 pr.2) m1

/-- Result of `process_file_content`, with the observable effects the
claims talk about: whether the file's contents were read, and which
cache records were enqueued for insertion. -/
structure FileHashResult where
  object : Object
  read_contents : Bool
  cache_inserts : List (RelativePath × CacheValue)
deriving DecidableEq

/-- `process_file_content` (`src/builder/parallel.rs`): stat the file;
on a cache hit (`cached.mtime == mtime && cached.size == len`) reuse the
cached id without reading; otherwise read the contents, hash them, and
enqueue a cache record.  IO failures (missing file, no file name) are
`Err`, which the caller turns into a panic. -/
def process_file_content (ctx : Context) (entry : FileEntry) :
    Except ReadContentError FileHashResult :=
  match ctx.stat_file entry.path with
  | none => .error (.ioError .notFound)
  | some (metadata, contents) =>
    match entry.path.file_name with
    | none => .error (.ioError .notFound)
    | some file_name =>
      match ctx.read_cache entry.path with
      | some cache_value =>
        if cache_value.mtime = metadata.mtime ∧ cache_value.size = metadata.size then
          .ok ⟨Object.new_file cache_value.object_id file_name, false, []⟩
        else
          let object_id := Hash.from_contents contents
          .ok ⟨Object.new_file object_id file_name, true,
            [(entry.path, ⟨metadata.mtime, metadata.size, object_id⟩)]⟩
      | none =>
        let object_id := Hash.from_contents contents
        .ok ⟨Object.new_file object_id file_name, true,
          [(entry.path, ⟨metadata.mtime, metadata.size, object_id⟩)]⟩

/-- `process_tree_content`: look the directory up in the children map;
absent means an empty directory and yields nothing; otherwise sort the
children, write the tree, and return a tree object carrying the
directory's full relative path. -/
def process_tree_content (m : ObjMap) (st : Store) (entry : FileEntry) :
    Option Object × Store :=
  match objmap_lookup m entry.path with
  | none => (none, st)
  | some objects =>
    let objects := sortObjects objects
    let (object_id, st') := write_tree_contents st objects
    (some (Object.new_tree object_id entry.path), st')

/-- The files pass: fold `process_file_content` over the file entries,
grouping the resulting objects under their parent directory.  An `Err`
from `process_file_content` is the `expect` panic. -/
def files_pass (ctx : Context) :
    List FileEntry → Except String (ObjMap × List Object)
  | [] => .ok ([], [])
  | entry :: rest =>
    match process_file_content ctx entry with
    | .error _ => .error "failed to process file content"
    | .ok r =>
      match files_pass ctx rest with
      | .error e => .error e
      | .ok (m, objs) => .ok (objmap_push m entry.path.parent r.object, objs ++ [r.object])

/-- One directory layer: fold `process_tree_content` over the entries of
the layer against the snapshot map, accumulating emitted tree objects
into a fresh map. -/
def layer_pass (snapshot : ObjMap) : List FileEntry → Store → ObjMap × Store
  | [], st => ([], st)
  | entry :: rest, st =>
    match process_tree_content snapshot st entry with
    | (none, st') => layer_pass snapshot rest st'
    | (some o, st') =>
      let (tmp, st'') := layer_pass snapshot rest st'
      (objmap_push tmp entry.path.parent o, st'')

/-- The `for i in (1..max_depth).rev()` loop: process layers `i`,
`i-1`, ..., `1`, each time selecting the directory entries at exactly
that depth and merging the layer's map into the accumulator. -/
def dir_passes : Nat → List FileEntry → ObjMap → Store → ObjMap × Store
  | 0, _, m, st => (m, st)
  | i + 1, dirs, m, st =>
    let target := dirs.filter (fun e => e.depth = i + 1)
    let rest := dirs.filter (fun e => ¬ e.depth = i + 1)
    let (tmp, st') := layer_pass m target st
    dir_passes i rest (merge_hashmap m tmp) st'

/-- A successful build: the root object, the final loose store, and the
file objects produced by the files pass. -/
structure BuildOk where
  root : Object
  store : Store
  file_objects : List Object

/-- `parallel::build`: partition by kind, files pass, directory passes
from depth `max_depth - 1` down to `1`, then remove the `Root` key and
write the root tree.  `Except.error` is a Rust panic (its message). -/
def parallel_build (ctx : Context) (t : TargetEntries) : Except String BuildOk :=
  match files_pass ctx (t.files.filter (fun e => e.mode = ObjectKind.file)) with
  | .error e => .error e
  | .ok (m, file_objects) =>
    match dir_passes (t.max_depth - 1)
        (t.files.filter (fun e => ¬ e.mode = ObjectKind.file)) m ctx.loose with
    | (m, st) =>
      match objmap_lookup m .root with
      | none => .error "called Option::unwrap on a None value"
      | some objects =>
        match write_tree_contents st (sortObjects objects) with
        | (object_id, st') => .ok ⟨Object.new_tree object_id .root, st', file_objects⟩

/-- Errors of `Builder::build` proper. -/
inductive BuildResult where
  | ok (r : BuildOk)
  | error (e : ReadContentError)
  | panicked (msg : String)

/-- `Builder::build` (`src/builder.rs`): an empty target
(`max_depth == 0`) is the `TargetEmpty` error; otherwise run the
parallel pipeline. -/
def builder_build (ctx : Context) (t : TargetEntries) : BuildResult :=
  if t.max_depth = 0 then .error .targetEmpty
  else
    match parallel_build ctx t with
    | .ok r => .ok r
    | .error msg => .panicked msg

/-! ### Metadata-cache writer loop (`src/cache.rs`) -/

/-- A queued insert record. -/
abbrev WriteRecord := RelativePath × CacheValue

/-- What `recv_timeout` can yield in one iteration of
`writer_thread_loop`. -/
inductive WriterEvent where
  | insert (r : WriteRecord)
  | shutdown
  | disconnected
  | timeout
deriving DecidableEq

/-- Outcome of one loop iteration: the buffer afterwards, whether
`flush` ran (committing the whole buffer in one transaction and
draining it), and whether the loop exited. -/
structure WriterIteration where
  buffer : List WriteRecord
  flushed : Bool
  exited : Bool
deriving DecidableEq

/-- One iteration of `writer_thread_loop`: an insert is buffered, the
shutdown sentinel and a disconnected channel flush and exit, a timeout
does nothing; then, if still running, flush exactly when the interval
has elapsed since the last flush.  `elapsed` is `last_flush.elapsed()`
at the check, `interval` the configured flush interval (default 1 s),
both in microseconds. -/
def writer_iteration (interval : Nat) (buffer : List WriteRecord)
    (elapsed : Nat) (ev : WriterEvent) : WriterIteration :=
  match ev with
  | .insert r =>
    let buffer := buffer ++ [r]
    if interval ≤ elapsed then ⟨[], true, false⟩ else ⟨buffer, false, false⟩
  | .shutdown => ⟨[], true, true⟩
  | .disconnected => ⟨[], true, true⟩
  | .timeout =>
    if interval ≤ elapsed then ⟨[], true, false⟩ else ⟨buffer, false, false⟩

/-! ### Garbage collection (`src/commands.rs`, `GCCommand`) -/

/-- The mark map `HashMap<ObjectID, bool>`; every insertion marks
`true`. -/
abbrev MarkMap := List (ObjectID × Bool)

def get_mark (m : MarkMap) (id : ObjectID) : Bool :=
  ((m.find? (fun pr => pr.1 = id)).map (·.2)).getD false

/-- `objects.insert(id, true)`: overwrite in place, append when new. -/
def set_mark : MarkMap → ObjectID → MarkMap
  | [], id => [(id, true)]
  | (k, v) :: rest, id =>
    if k = id then (k, true) :: rest else (k, v) :: set_mark rest id

inductive GcError where
  | read (e : ReadContentError)
  | fuel
deriving DecidableEq

/-- `GCCommand::mark_used_object`: mark the root, read it as a tree,
and recurse over its tree children (file children stay unmarked).  The
source recursion has no cycle guard; `fuel` bounds the recursion depth
in the model.  The `for object in tree` loop is the fold. -/
def mark_used_object (ctx : Context) : Nat → ObjectID → MarkMap → Except GcError MarkMap
  | 0, _, _ => .error .fuel
  | fuel + 1, root_object, m => do
    let m := set_mark m root_object
    let tree ← (ctx.read_tree_contents root_object).mapError GcError.read
    tree.foldlM (fun m o =>
      if o.is_tree then do
        let m := set_mark m o.id
        mark_used_object ctx fuel o.id m
      else pure m) m

/-- The loop body of `mark_used_object`, named for the proofs. -/
def mark_child_step (ctx : Context) (fuel : Nat) (m : MarkMap) (o : Object) :
    Except GcError MarkMap :=
  if o.is_tree then do
    let m := set_mark m o.id
    mark_used_object ctx fuel o.id m
  else pure m

/-- `Context::list_object_refs`: the reference file names parsed as
`ObjectRef`s (always succeeds), sorted. -/
def object_ref_leB (a b : ObjectRef) : Bool :=
  match a, b with
  | .reference x, .reference y => (match strCmp x y with | .gt => false | _ => true)
  | .id x, .id y => x ≤ y
  | .reference _, .id _ => true
  | .id _, .reference _ => false

def Context.list_object_refs (ctx : Context) : List ObjectRef :=
  sortBy object_ref_leB (ctx.refs.map (fun pr => object_ref_from_str pr.1))

/-- The sweep: for each map entry, an unmarked id's loose file is
deleted if present (the packed store is never touched). -/
def gc_sweep (marks : MarkMap) (loose : Store) : Store :=
  marks.foldl (fun st pr => if pr.2 then st else store_erase st pr.1) loose

/-- The body of the `for object_ref in object_refs` loop of
`GCCommand::run`: dereference the reference and mark from it. -/
def mark_ref_step (ctx : Context) (fuel : Nat) (m : MarkMap) (oref : ObjectRef) :
    Except GcError MarkMap := do
  let object_id ← (ctx.deref_object_ref oref).mapError GcError.read
  mark_used_object ctx fuel object_id m

/-- Marking from every named reference in turn. -/
def gc_mark_refs (ctx : Context) (fuel : Nat) (m : MarkMap) : Except GcError MarkMap :=
  ctx.list_object_refs.foldlM (mark_ref_step ctx fuel) m

/-- `GCCommand::run` (non-dry-run unless `dry_run`): seed the mark map
with every stored id unmarked, mark from `HEAD` and from every named
reference, then sweep.  Returns the remaining loose store and the ids
that were considered garbage. -/
def gc_run (fuel : Nat) (ctx : Context) (dry_run : Bool) :
    Except GcError (Store × List ObjectID) := do
  let head_object ← ctx.read_head.mapError GcError.read
  let objects := ctx.list_object_ids.map (fun id => (id, false))
  let objects ← mark_used_object ctx fuel head_object objects
  let objects ← gc_mark_refs ctx fuel objects
  let loose' := if dry_run then ctx.loose else gc_sweep objects ctx.loose
  .ok (loose', (objects.filter (fun pr => ¬ pr.2)).map (·.1))

/-- Reachability by descending tree children from a root object, as the
mark phase of GC walks the store: the root itself, or any tree child of
a reachable object, transitively.  (File children are not included:
the mark phase never marks them.) -/
inductive TreeReach (ctx : Context) : ObjectID → ObjectID → Prop where
  | refl (a : ObjectID) : TreeReach ctx a a
  | step {a : ObjectID} {os : List Object} {o : Object} {b : ObjectID} :
      ctx.read_tree_contents a = .ok os → o ∈ os → o.is_tree = true →
      TreeReach ctx o.id b → TreeReach ctx a b

/-! ### Diff (`src/commands.rs`, `DiffCommand`)

The LCS step (`similar::capture_diff_slices`, an external crate) is a
parameter: any function producing diff operations over the two entry
lists.  Each operation carries the changed values directly, as
`iter_changes` yields them.  Printed output is modelled as the list of
printed lines, each line recording the joined path and the two optional
sides. -/

inductive DiffOp where
  | equal (xs ys : List Object)
  | delete (xs : List Object)
  | insert (ys : List Object)
  | replace (xs ys : List Object)

abbrev DiffAlg := List Object → List Object → List DiffOp

/-- One printed line of `print_difference`: the joined path and the two
sides. -/
abbrev DiffLine := RelativePath × Option Object × Option Object

def joinRel (p : RelativePath) (q : RelativePath) : RelativePath :=
  p.join (match q with | .root => [] | .path cs => cs)

/-- `DiffCommand::print_difference`: exactly one line unless both sides
are absent. -/
def print_difference (path : RelativePath) (oa ob : Option Object) : List DiffLine :=
  match oa, ob with
  | none, none => []
  | some a, _ => [(joinRel path a.basename, oa, ob)]
  | none, some b => [(joinRel path b.basename, none, some b)]

def relPath_leB (a b : RelativePath) : Bool :=
  match RelativePath.cmp a b with
  | .gt => false
  | _ => true

/-- `DiffCommand::inner_print_diff`: equal ids (or the depth limit)
short-circuit with no output; otherwise read both trees, run the diff
algorithm, and print per operation; `Replace` groups the two sides by
basename, prints each pair sorted by basename, and recurses when both
sides are trees. -/
def inner_print_diff (alg : DiffAlg) (ctx : Context) :
    Nat → RelativePath → ObjectID → ObjectID → Option Nat → Nat →
    Except ReadContentError (List DiffLine)
  | 0, _, _, _, _, _ => .ok []
  | fuel + 1, parent, object_a, object_b, max_depth, depth =>
    if object_a = object_b then .ok []
    else if (max_depth.map (fun m => decide (m ≤ depth))).getD false then .ok []
    else do
      let tree_a ← ctx.read_tree_contents object_a
      let tree_b ← ctx.read_tree_contents object_b
      (alg tree_a tree_b).foldlM (fun acc op => do
        match op with
        | .equal _ _ => .ok acc
        | .delete xs =>
          .ok (acc ++ (xs.map (fun o => print_difference parent (some o) none)).flatten)
        | .insert ys =>
          .ok (acc ++ (ys.map (fun o => print_difference parent none (some o))).flatten)
        | .replace xs ys =>
          let names := sortBy relPath_leB (((xs ++ ys).map (·.basename)).dedup)
          names.foldlM (fun acc2 name => do
            let oa := (xs.filter (fun o => o.basename = name)).getLast?
            let ob := (ys.filter (fun o => o.basename = name)).getLast?
            let acc2 := acc2 ++ print_difference parent oa ob
            match oa, ob with
            | some x, some y =>
              if x.is_tree ∧ y.is_tree then do
                let sub ← inner_print_diff alg ctx fuel (joinRel parent name)
                  x.id y.id max_depth (depth + 1)
                .ok (acc2 ++ sub)
              else .ok acc2
            | _, _ => .ok acc2) acc) []

/-- `DiffCommand::print_diff`: unconditionally print the root summary
line (both sides as tree objects with basename `"."`), then run the
recursive diff from the root. -/
def print_diff (alg : DiffAlg) (fuel : Nat) (ctx : Context)
    (object_a_id object_b_id : ObjectID) (max_depth : Option Nat) :
    Except ReadContentError (List DiffLine) := do
  let object_a := Object.new .tree object_a_id ["."]
  let object_b := Object.new .tree object_b_id ["."]
  let header := print_difference .root (some object_a) (some object_b)
  let rest ← inner_print_diff alg ctx fuel .root object_a_id object_b_id max_depth 0
  .ok (header ++ rest)

/-- Strict ascending order of a list of strings (byte order), as the
spec demands of tree-payload basenames. -/
def strictly_ascending : List String → Bool
  | [] => true
  | [_] => true
  | a :: b :: rest => strCmp a b = Ordering.lt && strictly_ascending (b :: rest)

/-- The basenames of a stored tree payload, in stored order (empty when
the payload does not parse). -/
def payload_basenames (p : String) : List String :=
  match (rust_lines p).mapM parse_tree_line with
  | .ok os => os.map Object.display_name
  | .error _ => []

/-- Every payload in the store is the serialization of some entry list,
and is stored under the hash of itself (content addressing). -/
def StorePayloadsAreTrees (st : Store) : Prop :=
  ∀ pr ∈ st, (∃ entries, pr.2 = serialize_entries entries)
    ∧ pr.1 = Hash.from_contents pr.2

/-! ### Concrete repositories and targets used by the claims -/

/-- A fresh repository context with nothing stored, used as a concrete
input by several witnesses. -/
def empty_repo : Context :=
  { loose := [], packed := none, refs := [], head := none,
    cache := fun _ => none, world := [] }

/-- A one-file repository whose cache already holds a fresh entry for
that file. -/
def c4_repo : Context :=
  { loose := [], packed := none, refs := [], head := none,
    cache := fun p =>
      if p = RelativePath.path ["a"] then some ⟨3, 7, Hash.from_contents "hello"⟩ else none,
    world := [(.path ["a"], ⟨3, 7⟩, "hello")] }

/-- Directory `a` holding file `m.txt` and (non-empty) subdirectory
`z`. -/
def c1_repo : Context :=
  { loose := [], packed := none, refs := [], head := none,
    cache := fun _ => none,
    world := [(.path ["a", "m.txt"], ⟨100, 1⟩, "M"),
              (.path ["a", "z", "f"], ⟨200, 1⟩, "F")] }

def c1_target : TargetEntries :=
  { max_depth := 3,
    files :=
      [⟨.tree, .root, 0⟩,
       ⟨.tree, .path ["a"], 1⟩,
       ⟨.file, .path ["a", "m.txt"], 2⟩,
       ⟨.tree, .path ["a", "z"], 2⟩,
       ⟨.file, .path ["a", "z", "f"], 3⟩],
    num_files := 2, num_dirs := 3 }

/-- A store with a two-level tree, for the C6 witness: the root tree
`1` holds directory `d` (id `2`), which holds file `g`. -/
def c6_repo : Context :=
  { loose := [(1, "tree\t0000000000000002\td\n"), (2, "file\t00000000000000aa\tg\n")],
    packed := none, refs := [], head := some "0000000000000001",
    cache := fun _ => none, world := [] }

/-- The one-file repository and its successful build outcome, for the
C9 witness (the literal ids are the stand-in hash values). -/
def c9_repo : Context :=
  { loose := [], packed := none, refs := [], head := none,
    cache := fun _ => none, world := [(.path ["a"], ⟨1, 1⟩, "x")] }

def c9_target : TargetEntries :=
  { max_depth := 1,
    files := [⟨.tree, .root, 0⟩, ⟨.file, .path ["a"], 1⟩],
    num_files := 1, num_dirs := 1 }

def c9_outcome : BuildOk :=
  { root := ⟨.tree, 16655649303496012361, .path []⟩,
    store := [(16655649303496012361, "file\taf63f54c86021707\ta\n")],
    file_objects := [⟨.file, 12638214688346347271, .path ["a"]⟩] }

/-- A store in which the tree reachable from `HEAD` (id `187`) lists a
file child `170`, and id `170` also has a loose file of its own. -/
def c2_repo : Context :=
  { loose := [(187, "file\t00000000000000aa\tf\n"), (170, "junk")],
    packed := none, refs := [], head := some "00000000000000bb",
    cache := fun _ => none, world := [] }

/-! ## Generic lemmas -/

theorem toHexAux_length (k : Nat) : ∀ n, (toHexAux k n).length = k := by
  induction k with
  | zero => intro n; rfl
  | succ k ih => intro n; simp [toHexAux, ih]

theorem hexDigitVal_hexDigitChar : ∀ d < 16, hexDigitVal (hexDigitChar d) = some d := by
  decide

theorem parseHexAcc_toHexAux (k : Nat) :
    ∀ a n, parseHexAcc a (toHexAux k n) = some (a * 16 ^ k + n % 16 ^ k) := by
  induction k with
  | zero => intro a n; simp [toHexAux, parseHexAcc, Nat.mod_one]
  | succ k ih =>
    intro a n
    have hacc : ∀ (a' : Nat) (l : List Char) (c : Char),
        parseHexAcc a' (l ++ [c]) =
          match parseHexAcc a' l with
          | some v =>
            (match hexDigitVal c with
             | some d => some (v * 16 + d)
             | none => none)
          | none => none := by
      intro a' l
      induction l generalizing a' with
      | nil => intro c; cases h : hexDigitVal c <;> simp [parseHexAcc, h]
      | cons x xs ihl =>
        intro c
        cases hx : hexDigitVal x <;> simp [parseHexAcc, hx, ihl]
    have hd : hexDigitVal (hexDigitChar (n % 16)) = some (n % 16) :=
      hexDigitVal_hexDigitChar _ (Nat.mod_lt _ (by norm_num))
    rw [toHexAux, hacc, ih a (n / 16), hd]
    show some ((a * 16 ^ k + n / 16 % 16 ^ k) * 16 + n % 16)
      = some (a * 16 ^ (k + 1) + n % 16 ^ (k + 1))
    congr 1
    have h1 : (n / 16) % 16 ^ k = n % 16 ^ (k + 1) / 16 := by
      have := Nat.mod_mul_right_div_self n 16 (16 ^ k)
      rw [← pow_succ'] at this
      omega
    have h2 : n % 16 = n % 16 ^ (k + 1) % 16 := by
      rw [Nat.mod_mod_of_dvd n (by rw [pow_succ']; exact Dvd.intro _ rfl)]
    have h3 := Nat.div_add_mod (n % 16 ^ (k + 1)) 16
    calc (a * 16 ^ k + n / 16 % 16 ^ k) * 16 + n % 16
        = a * 16 ^ (k + 1) + (16 * (n % 16 ^ (k + 1) / 16) + n % 16 ^ (k + 1) % 16) := by
          rw [h1, h2]; ring
      _ = a * 16 ^ (k + 1) + n % 16 ^ (k + 1) := by rw [h3]

/-- Hex round-trip, as the spec requires: a 64-bit id comes back from
its 16-character rendering. -/
theorem from_hex_to_hex (n : ObjectID) (h : n < 2 ^ 64) :
    Hash.from_hex (Hash.to_hex n) = .ok n := by
  have hlen : (Hash.to_hex n).data.length = 16 := toHexAux_length 16 n
  have hparse : parseHexAcc 0 (Hash.to_hex n).data = some (0 * 16 ^ 16 + n % 16 ^ 16) :=
    parseHexAcc_toHexAux 16 0 n
  have hmod : n % 16 ^ 16 = n := by
    apply Nat.mod_eq_of_lt
    exact lt_of_lt_of_eq h (by norm_num)
  unfold Hash.from_hex
  rw [if_pos hlen, hparse]
  show Except.ok (0 * 16 ^ 16 + n % 16 ^ 16) = Except.ok n
  rw [Nat.zero_mul, Nat.zero_add, hmod]

theorem toHexAux_not_ws (k : Nat) : ∀ n c, c ∈ toHexAux k n → isWsChar c = false := by
  induction k with
  | zero => intro n c hc; simp [toHexAux] at hc
  | succ k ih =>
    intro n c hc
    simp only [toHexAux, List.mem_append, List.mem_singleton] at hc
    rcases hc with hc | hc
    · exact ih _ _ hc
    · subst hc
      have : n % 16 < 16 := Nat.mod_lt _ (by norm_num)
      revert this
      generalize n % 16 = d
      revert d
      decide

theorem dropWhile_eq_self_of_all {p : α → Bool} :
    ∀ {l : List α}, (∀ c ∈ l, p c = false) → l.dropWhile p = l := by
  intro l h
  cases l with
  | nil => rfl
  | cons x xs => simp [List.dropWhile, h x (by simp)]

/-- Trimming the hex rendering is a no-op (no whitespace in it). -/
theorem trim_to_hex (n : ObjectID) : trim_string (Hash.to_hex n) = Hash.to_hex n := by
  have hall : ∀ c ∈ (Hash.to_hex n).data, isWsChar c = false := fun c hc =>
    toHexAux_not_ws 16 n c hc
  have h1 : (Hash.to_hex n).data.dropWhile isWsChar = (Hash.to_hex n).data :=
    dropWhile_eq_self_of_all hall
  have h2 : (Hash.to_hex n).data.reverse.dropWhile isWsChar = (Hash.to_hex n).data.reverse :=
    dropWhile_eq_self_of_all (fun c hc => hall c (List.mem_reverse.mp hc))
  simp only [trim_string, h1, h2, List.reverse_reverse]

theorem refs_lookup_insert_self (refs : List (String × String)) (n c : String) :
    refs_lookup (refs_insert refs n c) n = some c := by
  induction refs with
  | nil => simp [refs_insert, refs_lookup, List.find?]
  | cons pr rest ih =>
    by_cases h : pr.1 = n
    · simp [refs_insert, h, refs_lookup, List.find?]
    · cases pr with
      | mk k v =>
        simp only at h
        simp only [refs_insert, if_neg h]
        simpa [refs_lookup, List.find?, h] using ih

theorem refs_lookup_erase_self (refs : List (String × String)) (n : String) :
    refs_lookup (refs_erase refs n) n = none := by
  induction refs with
  | nil => rfl
  | cons pr rest ih =>
    by_cases h : pr.1 = n
    · simp only [refs_erase] at ih ⊢
      rw [show List.filter (fun pr => decide (pr.1 ≠ n)) (pr :: rest)
          = List.filter (fun pr => decide (pr.1 ≠ n)) rest by simp [h]]
      exact ih
    · simp [refs_erase, refs_lookup, List.find?, h] at ih ⊢

/-! ## Claims -/

/-- C7: for every reference name other than `HEAD` and every (64-bit)
object id, after `save(name, id)` dereferencing the name yields exactly
`id`; deleting it then succeeds, and dereferencing afterwards fails with
a `NotFound` (IO) error. -/
theorem claim_C7_ref_round_trip (ctx : Context) (name : String) (id : ObjectID)
    (hname : name ≠ "HEAD") (hid : id < 2 ^ 64) :
    (ctx.write_object_ref name id).deref_object_ref (.reference name) = .ok id
    ∧ ∃ ctx', (ctx.write_object_ref name id).delete_object_ref name = .ok ctx'
        ∧ ctx'.deref_object_ref (.reference name) = .error (.ioError .notFound) := by
  have hsave : refs_lookup (ctx.write_object_ref name id).refs name = some (Hash.to_hex id) := by
    simp [Context.write_object_ref, refs_lookup_insert_self]
  refine ⟨?_, ?_⟩
  · simp only [Context.deref_object_ref, if_neg hname, hsave, trim_to_hex,
      from_hex_to_hex id hid, Except.mapError]
  · refine ⟨⟨(ctx.write_object_ref name id).loose, (ctx.write_object_ref name id).packed,
      refs_erase (ctx.write_object_ref name id).refs name, (ctx.write_object_ref name id).head,
      (ctx.write_object_ref name id).cache, (ctx.write_object_ref name id).world⟩, ?_, ?_⟩
    · simp only [Context.delete_object_ref, hsave]
    · simp [Context.deref_object_ref, if_neg hname, refs_lookup_erase_self]

/-- Witness for C7 at a concrete repository: reference `"r1"` and id
`5`. -/
theorem claim_C7_ref_round_trip_witness :
    ((empty_repo.write_object_ref "r1" 5).deref_object_ref (.reference "r1") = .ok 5
    ∧ ∃ ctx', (empty_repo.write_object_ref "r1" 5).delete_object_ref "r1" = .ok ctx'
        ∧ ctx'.deref_object_ref (.reference "r1") = .error (.ioError .notFound)) :=
  claim_C7_ref_round_trip empty_repo "r1" 5 (by decide) (by norm_num)

/-- C8: a target whose generated entries have maximum depth `0` makes
`Builder::build` return the `TargetEmpty` error and no root object. -/
theorem claim_C8_empty_target (ctx : Context) (t : TargetEntries)
    (h : t.max_depth = 0) : builder_build ctx t = .error .targetEmpty := by
  simp [builder_build, h]

/-- Witness for C8: the target holding only the implicit `Root` entry. -/
theorem claim_C8_empty_target_witness :
    builder_build empty_repo
      { max_depth := 0, files := [⟨.tree, .root, 0⟩], num_files := 0, num_dirs := 1 }
      = .error .targetEmpty :=
  claim_C8_empty_target _ _ rfl

/-- C5 as claimed is false: no buffer-size threshold forces a flush.
For every candidate threshold, an iteration that receives nothing but a
timeout while the interval (1 s here) has not yet elapsed leaves a
buffer of any length unflushed. -/
theorem claim_C5_counterexample :
    ¬ ∃ threshold : Nat, ∀ (buffer : List WriteRecord) (elapsed : Nat) (ev : WriterEvent),
        threshold < (writer_iteration 1000000 buffer elapsed ev).buffer.length →
        (writer_iteration 1000000 buffer elapsed ev).flushed = true := by
  rintro ⟨n, h⟩
  have hres : writer_iteration 1000000 (List.replicate (n + 1) (.root, ⟨0, 0, 0⟩)) 0 .timeout
      = ⟨List.replicate (n + 1) (.root, ⟨0, 0, 0⟩), false, false⟩ := by
    simp [writer_iteration]
  have := h (List.replicate (n + 1) (.root, ⟨0, 0, 0⟩)) 0 .timeout (by simp [hres])
  rw [hres] at this
  simp at this

/-- C5, amended: an iteration of the cache writer loop flushes exactly
when the shutdown sentinel or channel disconnect arrives or when the
configured interval has elapsed since the last flush — never because of
the buffer's size. -/
theorem claim_C5_flush_condition (interval : Nat) (buffer : List WriteRecord)
    (elapsed : Nat) (ev : WriterEvent) :
    (writer_iteration interval buffer elapsed ev).flushed = true ↔
      (ev = .shutdown ∨ ev = .disconnected ∨ interval ≤ elapsed) := by
  cases ev <;> by_cases h : interval ≤ elapsed <;> simp [writer_iteration, h]

/-- C3 as claimed is false: diffing an id with itself still prints one
line (the unconditional root summary), not nothing. -/
theorem claim_C3_counterexample :
    print_diff (fun _ _ => []) 5 empty_repo 7 7 none ≠ .ok ([] : List DiffLine) := by
  intro h
  rw [show print_diff (fun _ _ => []) 5 empty_repo 7 7 none
      = .ok [(.path ["."], some (Object.new .tree 7 ["."]), some (Object.new .tree 7 ["."]))]
    from rfl] at h
  simp at h

/-- C3, amended: diffing two equal tree ids produces exactly the single
unconditional root summary line and nothing else — the recursive diff
contributes no output — for every diff algorithm, store, fuel and depth
limit. -/
theorem claim_C3_diff_equal_trees (alg : DiffAlg) (fuel : Nat) (ctx : Context)
    (a : ObjectID) (max_depth : Option Nat) :
    print_diff alg fuel ctx a a max_depth =
      .ok [(.path ["."], some (Object.new .tree a ["."]), some (Object.new .tree a ["."]))] := by
  have hinner : inner_print_diff alg ctx fuel .root a a max_depth 0 = .ok [] := by
    cases fuel with
    | zero => rfl
    | succ fuel => simp [inner_print_diff]
  simp [print_diff, hinner, print_difference, joinRel, Object.new, RelativePath.join,
    Bind.bind, Except.bind]

/-- C4: cache-hit semantics of `process_file_content`.  On a hit
(cached mtime and size both equal the current ones) the cached id is
reused, the contents are not read, and nothing is inserted; otherwise
the contents are read, hashed, and a `(mtime, size, id)` record is
enqueued; and whenever the cached id equals the hash of the current
contents the produced file object is the same in both branches. -/
theorem claim_C4_cache_hit_semantics (ctx : Context) (entry : FileEntry)
    (metadata : FileStat) (contents : String) (file_name : String)
    (hstat : ctx.stat_file entry.path = some (metadata, contents))
    (hname : entry.path.file_name = some file_name) :
    (∀ cv, ctx.read_cache entry.path = some cv → cv.mtime = metadata.mtime →
      cv.size = metadata.size →
      process_file_content ctx entry = .ok ⟨Object.new_file cv.object_id file_name, false, []⟩)
    ∧ ((∀ cv, ctx.read_cache entry.path = some cv →
        ¬(cv.mtime = metadata.mtime ∧ cv.size = metadata.size)) →
      process_file_content ctx entry =
        .ok ⟨Object.new_file (Hash.from_contents contents) file_name, true,
          [(entry.path, ⟨metadata.mtime, metadata.size, Hash.from_contents contents⟩)]⟩)
    ∧ (∀ cv, ctx.read_cache entry.path = some cv →
      cv.object_id = Hash.from_contents contents →
      (process_file_content ctx entry).map (·.object)
        = .ok (Object.new_file (Hash.from_contents contents) file_name)) := by
  refine ⟨?_, ?_, ?_⟩
  · intro cv hcv hm hs
    simp [process_file_content, hstat, hname, hcv, hm, hs]
  · intro hmiss
    cases hcv : ctx.read_cache entry.path with
    | none => simp [process_file_content, hstat, hname, hcv]
    | some cv =>
      have hne := hmiss cv hcv
      simp [process_file_content, hstat, hname, hcv, hne]
  · intro cv hcv hid
    by_cases hhit : cv.mtime = metadata.mtime ∧ cv.size = metadata.size
    · simp [process_file_content, hstat, hname, hcv, hhit, hid, Except.map]
    · simp [process_file_content, hstat, hname, hcv, hhit, Except.map]

/-- Witness for C4: the concrete hit branch — the cached id is reused
without reading and without inserting. -/
theorem claim_C4_cache_hit_semantics_witness :
    process_file_content c4_repo ⟨.file, .path ["a"], 1⟩
      = .ok ⟨Object.new_file (Hash.from_contents "hello") "a", false, []⟩ :=
  (claim_C4_cache_hit_semantics c4_repo ⟨.file, .path ["a"], 1⟩ ⟨3, 7⟩ "hello" "a"
    rfl rfl).1 ⟨3, 7, Hash.from_contents "hello"⟩ rfl rfl rfl

/-! C10: a target of `Root` plus only (empty) directories panics on the
root unwrap. -/

theorem layer_pass_nil_map (target : List FileEntry) (st : Store) :
    layer_pass [] target st = ([], st) := by
  induction target generalizing st with
  | nil => rfl
  | cons e rest ih => simp [layer_pass, process_tree_content, objmap_lookup, List.find?, ih]

theorem dir_passes_nil_map (i : Nat) : ∀ (dirs : List FileEntry) (st : Store),
    dir_passes i dirs [] st = ([], st) := by
  induction i with
  | zero => intro dirs st; rfl
  | succ i ih =>
    intro dirs st
    simp [dir_passes, layer_pass_nil_map, merge_hashmap, ih]

/-- C10: for every target consisting of the `Root` entry and directory
entries only (no file entries, so the objects-per-directory map never
gains a `Root` key), the parallel build panics on the unconditional
`remove(&root).unwrap()` instead of returning an error value. -/
theorem claim_C10_root_unwrap (ctx : Context) (t : TargetEntries)
    (hall : ∀ e ∈ t.files, e.mode = ObjectKind.tree) (hd : 1 ≤ t.max_depth) :
    builder_build ctx t = .panicked "called Option::unwrap on a None value" := by
  have hfiles : t.files.filter (fun e => e.mode = ObjectKind.file) = [] := by
    rw [List.filter_eq_nil_iff]
    intro e he
    simp [hall e he]
  have hmd : ¬ t.max_depth = 0 := by omega
  simp [builder_build, if_neg hmd, parallel_build, hfiles, files_pass,
    dir_passes_nil_map, objmap_lookup, List.find?]

/-- Witness for C10: `Root` plus the single empty directory `a`. -/
theorem claim_C10_root_unwrap_witness :
    builder_build empty_repo
      { max_depth := 1,
        files := [⟨.tree, .root, 0⟩, ⟨.tree, .path ["a"], 1⟩],
        num_files := 0, num_dirs := 2 }
      = .panicked "called Option::unwrap on a None value" :=
  claim_C10_root_unwrap _ _ (by decide) (by decide)

/-! C1: the pipeline serializes a directory's children sorted by their
stored `basename` path — the full relative path for tree children, the
bare basename for file children — so a directory holding both can
serialize out of basename order. -/

/-! C6: expression grammar and path resolution. -/

theorem parseHexAcc_all_digits :
    ∀ (cs : List Char) (a n : Nat), parseHexAcc a cs = some n →
      ∀ c ∈ cs, (hexDigitVal c).isSome := by
  intro cs
  induction cs with
  | nil => intro a n _ c hc; simp at hc
  | cons x xs ih =>
    intro a n h c hc
    rcases List.mem_cons.mp hc with hc | hc
    · subst hc
      cases hx : hexDigitVal c with
      | none => rw [parseHexAcc, hx] at h; exact absurd h (by simp)
      | some d => simp [hx]
    · cases hx : hexDigitVal x with
      | none => rw [parseHexAcc, hx] at h; exact absurd h (by simp)
      | some d =>
        rw [parseHexAcc, hx] at h
        exact ih _ _ h c hc

theorem from_hex_ok_no_colon {h : String} {n : ObjectID}
    (hh : Hash.from_hex h = .ok n) : ∀ c ∈ h.data, c ≠ ':' := by
  intro c hc
  unfold Hash.from_hex at hh
  by_cases hlen : h.data.length = 16
  · rw [if_pos hlen] at hh
    cases hp : parseHexAcc 0 h.data with
    | none => rw [hp] at hh; exact absurd hh (by simp)
    | some m =>
      have hd := parseHexAcc_all_digits h.data 0 m hp c hc
      intro hcolon
      rw [hcolon] at hd
      exact absurd hd (by decide)
  · rw [if_neg hlen] at hh
    exact absurd hh (by simp)

theorem splitnColon_no_colon :
    ∀ (l : List Char), (∀ c ∈ l, c ≠ ':') → splitnColon l = (l, none) := by
  intro l h
  induction l with
  | nil => rfl
  | cons x xs ih =>
    have hx : x ≠ ':' := h x (by simp)
    simp only [splitnColon, if_neg hx]
    rw [ih (fun c hc => h c (by simp [hc]))]

theorem splitnColon_append_colon :
    ∀ (l : List Char), (∀ c ∈ l, c ≠ ':') → splitnColon (l ++ [':']) = (l, some []) := by
  intro l h
  induction l with
  | nil => simp [splitnColon]
  | cons x xs ih =>
    have hx : x ≠ ':' := h x (by simp)
    have ih' := ih (fun c hc => h c (by simp [hc]))
    simp only [List.cons_append, splitnColon, if_neg hx, List.append_eq, ih']

theorem except_bind_ok (a : α) (f : α → Except ε β) :
    Except.bind (Except.ok a) f = f a := rfl

theorem except_bind_error (e : ε) (f : α → Except ε β) :
    Except.bind (Except.error e) f = Except.error e := rfl

/-- One-level unfolding of `inner_search` on a non-empty component
list. -/
theorem inner_search_cons (ctx : Context) (b : ObjectRef) (c : String) (rest : List String) :
    ctx.inner_search b (c :: rest)
      = Except.bind (ctx.deref_object_ref b) (fun object =>
          Except.bind (ctx.read_tree_contents object) (fun contents =>
            match contents.find? (fun o => o.basename.file_name = some c) with
            | some o =>
              Except.bind (ctx.inner_search (.id o.id) rest)
                (fun results => .ok (results ++ [o.id]))
            | none => .error .objectNotFound)) := rfl

/-- One-level unfolding of `resolve_spec` on a non-empty component
list. -/
theorem resolve_spec_cons (ctx : Context) (j : ObjectID) (c : String) (rest : List String) :
    ctx.resolve_spec j (c :: rest)
      = Except.bind (ctx.read_tree_contents j) (fun contents =>
          match contents.find? (fun o => o.basename.file_name = some c) with
          | some o => ctx.resolve_spec o.id rest
          | none => .error .objectNotFound) := rfl

theorem search_object_def (ctx : Context) (b : ObjectRef) (comps : List String) :
    ctx.search_object b comps
      = Except.bind (ctx.inner_search b comps) (fun routes =>
          match routes with
          | [] => .error .objectNotFound
          | r :: _ => .ok r) := rfl

theorem inner_search_cons_ne_nil {ctx : Context} {b : ObjectRef} {c : String}
    {r : List String} {rs : List ObjectID}
    (h : ctx.inner_search b (c :: r) = .ok rs) : rs ≠ [] := by
  rw [inner_search_cons] at h
  cases hderef : ctx.deref_object_ref b with
  | error e => rw [hderef, except_bind_error] at h; exact absurd h (by simp)
  | ok i =>
    rw [hderef, except_bind_ok] at h
    cases hread : ctx.read_tree_contents i with
    | error e => rw [hread, except_bind_error] at h; exact absurd h (by simp)
    | ok contents =>
      rw [hread, except_bind_ok] at h
      cases hfind : contents.find? (fun o => o.basename.file_name = some c) with
      | none => rw [hfind] at h; exact absurd h (by simp)
      | some o =>
        rw [hfind] at h
        have h' : Except.bind (ctx.inner_search (.id o.id) r)
            (fun results => Except.ok (results ++ [o.id])) = Except.ok rs := h
        cases hin : ctx.inner_search (.id o.id) r with
        | error e => rw [hin, except_bind_error] at h'; exact absurd h' (by simp)
        | ok results =>
          rw [hin, except_bind_ok] at h'
          simp only [Except.ok.injEq] at h'
          subst h'
          simp

theorem search_object_eq_resolve_spec (ctx : Context) :
    ∀ (comps : List String) (base : ObjectRef), comps ≠ [] →
      ctx.search_object base comps
        = (ctx.deref_object_ref base).bind (fun i => ctx.resolve_spec i comps) := by
  intro comps
  induction comps with
  | nil => intro base hne; exact absurd rfl hne
  | cons c rest ih =>
    intro base _
    rw [search_object_def, inner_search_cons]
    cases hderef : ctx.deref_object_ref base with
    | error e => rfl
    | ok i =>
      simp only [except_bind_ok]
      rw [resolve_spec_cons]
      cases hread : ctx.read_tree_contents i with
      | error e => rfl
      | ok contents =>
        simp only [except_bind_ok]
        cases hfind : contents.find? (fun o => o.basename.file_name = some c) with
        | none => rfl
        | some o =>
          cases rest with
          | nil => rfl
          | cons c' rest' =>
            have hIH : ctx.search_object (ObjectRef.id o.id) (c' :: rest')
                = ctx.resolve_spec o.id (c' :: rest') := ih (.id o.id) (by simp)
            show Except.bind
                (Except.bind (ctx.inner_search (ObjectRef.id o.id) (c' :: rest'))
                  (fun results => Except.ok (results ++ [o.id])))
                (fun routes =>
                  match routes with
                  | [] => Except.error ReadContentError.objectNotFound
                  | r :: _ => Except.ok r)
              = ctx.resolve_spec o.id (c' :: rest')
            rw [← hIH, search_object_def]
            cases hin : ctx.inner_search (ObjectRef.id o.id) (c' :: rest') with
            | error e => rfl
            | ok rs =>
              obtain ⟨hd, tl, rfl⟩ := List.exists_cons_of_ne_nil (inner_search_cons_ne_nil hin)
              simp only [except_bind_ok, List.cons_append]

/-- C6: `"<id>:"` parses to the same expression (and hence resolves to
the same id) as `"<id>"`; and resolving `"<base>:p1/.../pn"` descends
the stored tree objects from the dereferenced base, matching each
component against entry basenames exactly, with `ObjectNotFound` when
any step fails to match — i.e. the route-accumulating search agrees
with the spec's direct descent. -/
theorem claim_C6_expression_resolution :
    (∀ (h : String) (n : ObjectID), Hash.from_hex h = .ok n →
      object_expr_from_str (h ++ ":") = object_expr_from_str h
      ∧ object_expr_from_str h = ⟨.id n, none⟩
      ∧ ∀ ctx : Context,
        (object_expr_from_str (h ++ ":")).resolve ctx = (object_expr_from_str h).resolve ctx)
    ∧ (∀ (ctx : Context) (base : ObjectRef) (comps : List String), comps ≠ [] →
      ctx.search_object base comps
        = (ctx.deref_object_ref base).bind (fun i => ctx.resolve_spec i comps)) := by
  constructor
  · intro h n hh
    have hnc : ∀ c ∈ h.data, c ≠ ':' := from_hex_ok_no_colon hh
    have hdata : (h ++ ":").data = h.data ++ [':'] := by
      rw [String.data_append]
    have hsplit1 : splitnColon h.data = (h.data, none) := splitnColon_no_colon _ hnc
    have hsplit2 : splitnColon (h ++ ":").data = (h.data, some []) := by
      rw [hdata]; exact splitnColon_append_colon _ hnc
    have heq : object_expr_from_str (h ++ ":") = object_expr_from_str h := by
      unfold object_expr_from_str
      rw [hsplit1, hsplit2]
      simp
    have hval : object_expr_from_str h = ⟨.id n, none⟩ := by
      unfold object_expr_from_str
      rw [hsplit1]
      have href : object_ref_from_str ⟨h.data⟩ = .id n := by
        unfold object_ref_from_str
        rw [show (⟨h.data⟩ : String) = h from rfl, hh]
      simp [href]
    exact ⟨heq, hval, fun ctx => by rw [heq]⟩
  · intro ctx base comps hne
    exact search_object_eq_resolve_spec ctx comps base hne

/-- Witness for C6 at concrete inputs: the 16-hex id `00000000000000aa`
with and without the trailing colon, and a concrete two-step search. -/
theorem claim_C6_expression_resolution_witness :
    object_expr_from_str ("00000000000000aa" ++ ":") = object_expr_from_str "00000000000000aa"
    ∧ c6_repo.search_object (.reference "HEAD") ["d", "g"]
      = (c6_repo.deref_object_ref (.reference "HEAD")).bind
          (fun i => c6_repo.resolve_spec i ["d", "g"]) :=
  ⟨(claim_C6_expression_resolution.1 "00000000000000aa" 170 (by rfl)).1,
   claim_C6_expression_resolution.2 c6_repo (.reference "HEAD") ["d", "g"] (by simp)⟩

/-! C9: everything the build pipeline writes to the object store is a
tree payload; file bytes are hashed but never stored. -/

theorem store_insert_cases {st : Store} {i : ObjectID} {p : String} :
    ∀ pr ∈ store_insert st i p, pr ∈ st ∨ pr = (i, p) := by
  induction st with
  | nil =>
    intro pr hpr
    simp only [store_insert, List.mem_singleton] at hpr
    exact Or.inr hpr
  | cons kv rest ih =>
    obtain ⟨k, v⟩ := kv
    intro pr hpr
    by_cases h : k = i
    · simp only [store_insert, if_pos h, List.mem_cons] at hpr
      rcases hpr with hpr | hpr
      · subst h; exact Or.inr (by simpa using hpr)
      · exact Or.inl (List.mem_cons_of_mem _ hpr)
    · simp only [store_insert, if_neg h, List.mem_cons] at hpr
      rcases hpr with hpr | hpr
      · exact Or.inl (by simp [hpr])
      · rcases ih pr hpr with hm | he
        · exact Or.inl (List.mem_cons_of_mem _ hm)
        · exact Or.inr he

theorem write_tree_contents_preserves {st : Store} (os : List Object)
    (h : StorePayloadsAreTrees st) :
    StorePayloadsAreTrees (write_tree_contents st os).2 := by
  intro pr hpr
  rcases store_insert_cases pr hpr with hmem | heq
  · exact h pr hmem
  · subst heq
    exact ⟨⟨os, rfl⟩, rfl⟩

theorem process_tree_content_preserves (m : ObjMap) {st : Store} (e : FileEntry)
    (h : StorePayloadsAreTrees st) :
    StorePayloadsAreTrees (process_tree_content m st e).2 := by
  unfold process_tree_content
  cases objmap_lookup m e.path with
  | none => exact h
  | some objects => exact write_tree_contents_preserves _ h

theorem layer_pass_snd (m : ObjMap) (e : FileEntry) (rest : List FileEntry) (st : Store) :
    (layer_pass m (e :: rest) st).2 = (layer_pass m rest (process_tree_content m st e).2).2 := by
  rw [layer_pass]
  cases hp : process_tree_content m st e with
  | mk o st' => cases o <;> rfl

theorem layer_pass_preserves (m : ObjMap) :
    ∀ (target : List FileEntry) (st : Store), StorePayloadsAreTrees st →
      StorePayloadsAreTrees (layer_pass m target st).2 := by
  intro target
  induction target with
  | nil => intro st h; exact h
  | cons e rest ih =>
    intro st h
    rw [layer_pass_snd]
    exact ih _ (process_tree_content_preserves m e h)

theorem dir_passes_preserves :
    ∀ (i : Nat) (dirs : List FileEntry) (m : ObjMap) (st : Store),
      StorePayloadsAreTrees st → StorePayloadsAreTrees (dir_passes i dirs m st).2 := by
  intro i
  induction i with
  | zero => intro dirs m st h; exact h
  | succ i ih =>
    intro dirs m st h
    unfold dir_passes
    exact ih _ _ _ (layer_pass_preserves m _ st h)

theorem process_file_content_kind {ctx : Context} {e : FileEntry} {r : FileHashResult}
    (h : process_file_content ctx e = .ok r) : r.object.kind = ObjectKind.file := by
  unfold process_file_content at h
  split at h
  · exact absurd h (by simp)
  · split at h
    · exact absurd h (by simp)
    · split at h
      · split at h
        · simp only [Except.ok.injEq] at h
          subst h
          rfl
        · simp only [Except.ok.injEq] at h
          subst h
          rfl
      · simp only [Except.ok.injEq] at h
        subst h
        rfl

theorem files_pass_kinds (ctx : Context) :
    ∀ (entries : List FileEntry) (m : ObjMap) (objs : List Object),
      files_pass ctx entries = .ok (m, objs) → ∀ o ∈ objs, o.kind = ObjectKind.file := by
  intro entries
  induction entries with
  | nil =>
    intro m objs h o ho
    simp only [files_pass, Except.ok.injEq, Prod.mk.injEq] at h
    rw [← h.2] at ho
    simp at ho
  | cons e rest ih =>
    intro m objs h o ho
    unfold files_pass at h
    cases hp : process_file_content ctx e with
    | error err => rw [hp] at h; exact absurd h (by simp)
    | ok r =>
      rw [hp] at h
      cases hf : files_pass ctx rest with
      | error err => rw [hf] at h; exact absurd h (by simp)
      | ok pair =>
        obtain ⟨m', objs'⟩ := pair
        rw [hf] at h
        simp only [Except.ok.injEq, Prod.mk.injEq] at h
        rw [← h.2] at ho
        rcases List.mem_append.mp ho with ho | ho
        · exact ih m' objs' hf o ho
        · rw [List.mem_singleton.mp ho]
          exact process_file_content_kind hp

theorem store_lookup_eq_none {st : Store} {x : ObjectID} (h : x ∉ st.map (·.1)) :
    store_lookup st x = none := by
  induction st with
  | nil => rfl
  | cons pr rest ih =>
    have h1 : ¬ (x = pr.1 ∨ x ∈ rest.map (·.1)) := by simpa using h
    push_neg at h1
    have hne : ¬ (pr.1 = x) := fun hh => h1.1 hh.symm
    unfold store_lookup
    rw [List.find?_cons_of_neg _ (by simpa using hne)]
    exact ih h1.2

/-- C9: from an empty store, a successful run of the build pipeline
leaves a store whose every payload is a serialized tree stored under
its own content hash; file contents are hashed into file objects but
never stored, so reading any produced file object id that was not also
produced as a tree id yields `ObjectNotFound`. -/
theorem claim_C9_build_stores_only_trees (ctx : Context) (t : TargetEntries) (r : BuildOk)
    (hrun : parallel_build ctx t = .ok r) (hloose : ctx.loose = [])
    (hpacked : ctx.packed = none) :
    (∀ pr ∈ r.store, (∃ entries, pr.2 = serialize_entries entries)
      ∧ pr.1 = Hash.from_contents pr.2)
    ∧ (∀ o ∈ r.file_objects, o.kind = ObjectKind.file)
    ∧ (∀ o ∈ r.file_objects, o.id ∉ r.store.map (·.1) →
        Context.read_object { ctx with loose := r.store } o.id
          = .error .objectNotFound) := by
  unfold parallel_build at hrun
  cases hfp : files_pass ctx (t.files.filter (fun e => e.mode = ObjectKind.file)) with
  | error e => rw [hfp] at hrun; exact absurd hrun (by simp)
  | ok pair =>
    obtain ⟨m, objs⟩ := pair
    rw [hfp] at hrun
    replace hrun : (match dir_passes (t.max_depth - 1)
          (t.files.filter (fun e => ¬ e.mode = ObjectKind.file)) m ctx.loose with
        | (m', st) =>
          match objmap_lookup m' RelativePath.root with
          | none => Except.error "called Option::unwrap on a None value"
          | some objects =>
            match write_tree_contents st (sortObjects objects) with
            | (object_id, st') =>
              Except.ok (⟨Object.new_tree object_id RelativePath.root, st', objs⟩ : BuildOk))
        = Except.ok r := hrun
    cases hdp : dir_passes (t.max_depth - 1)
        (t.files.filter (fun e => ¬ e.mode = ObjectKind.file)) m ctx.loose with
    | mk m' st =>
      rw [hdp] at hrun
      replace hrun : (match objmap_lookup m' RelativePath.root with
          | none => Except.error "called Option::unwrap on a None value"
          | some objects =>
            match write_tree_contents st (sortObjects objects) with
            | (object_id, st') =>
              Except.ok (⟨Object.new_tree object_id RelativePath.root, st', objs⟩ : BuildOk))
        = Except.ok r := hrun
      cases hlk : objmap_lookup m' .root with
      | none => rw [hlk] at hrun; exact absurd hrun (by simp)
      | some objects =>
        rw [hlk] at hrun
        replace hrun : Except.ok (⟨Object.new_tree (write_tree_contents st (sortObjects objects)).1
              .root, (write_tree_contents st (sortObjects objects)).2, objs⟩ : BuildOk)
            = Except.ok r := hrun
        simp only [Except.ok.injEq] at hrun
        subst hrun
        have hbase : StorePayloadsAreTrees ctx.loose := by
          rw [hloose]
          intro pr hpr
          simp at hpr
        have hst : StorePayloadsAreTrees st := by
          have := dir_passes_preserves (t.max_depth - 1)
            (t.files.filter (fun e => ¬ e.mode = ObjectKind.file)) m ctx.loose hbase
          rw [hdp] at this
          exact this
        have hfinal : StorePayloadsAreTrees (write_tree_contents st (sortObjects objects)).2 :=
          write_tree_contents_preserves _ hst
        refine ⟨hfinal, files_pass_kinds ctx _ m objs hfp, ?_⟩
        intro o _ hnot
        have hlook : store_lookup (write_tree_contents st (sortObjects objects)).2 o.id = none :=
          store_lookup_eq_none hnot
        unfold Context.read_object
        rw [hlook, hpacked]

/-- Witness for C9: in the one-file build, reading the file object's id
back from the store fails with `ObjectNotFound` — the file's bytes were
never stored. -/
theorem claim_C9_build_stores_only_trees_witness :
    Context.read_object { c9_repo with loose := c9_outcome.store } 12638214688346347271
      = .error .objectNotFound :=
  (claim_C9_build_stores_only_trees c9_repo c9_target c9_outcome (by rfl) rfl rfl).2.2
    ⟨.file, 12638214688346347271, .path ["a"]⟩ (by simp [c9_outcome]) (by decide)

/-! C2: what the GC mark-and-sweep preserves. -/

theorem foldlM_nil_except {ε α β : Type} (f : β → α → Except ε β) (b : β) :
    List.foldlM f b [] = .ok b := rfl

theorem foldlM_cons_except {ε α β : Type} (f : β → α → Except ε β) (b : β) (a : α)
    (l : List α) :
    List.foldlM f b (a :: l) = Except.bind (f b a) (fun b' => List.foldlM f b' l) := rfl

theorem mark_used_object_zero (ctx : Context) (root : ObjectID) (m : MarkMap) :
    mark_used_object ctx 0 root m = .error .fuel := rfl

theorem mark_used_object_succ (ctx : Context) (fuel : Nat) (root : ObjectID) (m : MarkMap) :
    mark_used_object ctx (fuel + 1) root m
      = Except.bind ((ctx.read_tree_contents root).mapError GcError.read)
          (fun tree => tree.foldlM (mark_child_step ctx fuel) (set_mark m root)) := rfl

theorem get_mark_set_mark_self (m : MarkMap) (id : ObjectID) :
    get_mark (set_mark m id) id = true := by
  induction m with
  | nil =>
    unfold set_mark get_mark
    rw [List.find?_cons_of_pos _ (by simp)]
    rfl
  | cons pr rest ih =>
    obtain ⟨k, v⟩ := pr
    unfold set_mark
    by_cases h : k = id
    · rw [if_pos h]
      unfold get_mark
      rw [List.find?_cons_of_pos _ (by simp [h])]
      rfl
    · rw [if_neg h]
      unfold get_mark at ih ⊢
      rw [List.find?_cons_of_neg _ (by simp [h])]
      exact ih

theorem get_mark_set_mark_mono {m : MarkMap} {x : ObjectID} (id : ObjectID)
    (h : get_mark m x = true) : get_mark (set_mark m id) x = true := by
  induction m with
  | nil => exact absurd h (by unfold get_mark; simp)
  | cons pr rest ih =>
    obtain ⟨k, v⟩ := pr
    unfold set_mark
    by_cases hk : k = id
    · rw [if_pos hk]
      by_cases hx : k = x
      · unfold get_mark
        rw [List.find?_cons_of_pos _ (by simp [hx])]
        rfl
      · unfold get_mark at h ⊢
        rw [List.find?_cons_of_neg _ (by simp [hx])] at h ⊢
        exact h
    · rw [if_neg hk]
      by_cases hx : k = x
      · unfold get_mark at h ⊢
        rw [List.find?_cons_of_pos _ (by simp [hx])] at h ⊢
        exact h
      · unfold get_mark at h ⊢
        rw [List.find?_cons_of_neg _ (by simp [hx])] at h ⊢
        exact ih h

theorem set_mark_keys (m : MarkMap) (id : ObjectID) :
    (set_mark m id).map (·.1)
      = if id ∈ m.map (·.1) then m.map (·.1) else m.map (·.1) ++ [id] := by
  induction m with
  | nil => simp [set_mark]
  | cons pr rest ih =>
    obtain ⟨k, v⟩ := pr
    by_cases hk : k = id
    · subst hk
      simp [set_mark]
    · simp only [set_mark, if_neg hk, List.map_cons, ih]
      by_cases hin : id ∈ rest.map (·.1)
      · simp [hin, Ne.symm hk]
      · simp [hin, Ne.symm hk]

theorem set_mark_nodup {m : MarkMap} (id : ObjectID) (h : (m.map (·.1)).Nodup) :
    ((set_mark m id).map (·.1)).Nodup := by
  rw [set_mark_keys]
  by_cases hin : id ∈ m.map (·.1)
  · rw [if_pos hin]; exact h
  · rw [if_neg hin]
    refine List.Nodup.append h (List.nodup_singleton id) ?_
    intro x hx hx'
    rw [List.mem_singleton] at hx'
    subst hx'
    exact hin hx

/-- Monotonicity: marking only ever turns marks on, both for
`mark_used_object` and for its child loop. -/
theorem mark_mono (ctx : Context) : ∀ fuel : Nat,
    (∀ (root : ObjectID) (m m' : MarkMap) (x : ObjectID),
      mark_used_object ctx fuel root m = .ok m' → get_mark m x = true → get_mark m' x = true)
    ∧ (∀ (os : List Object) (m m' : MarkMap) (x : ObjectID),
      os.foldlM (mark_child_step ctx fuel) m = .ok m' →
      get_mark m x = true → get_mark m' x = true) := by
  intro fuel
  induction fuel with
  | zero =>
    constructor
    · intro root m m' x h
      rw [mark_used_object_zero] at h
      exact absurd h (by simp)
    · intro os
      induction os with
      | nil =>
        intro m m' x h hx
        rw [foldlM_nil_except] at h
        simp only [Except.ok.injEq] at h
        subst h
        exact hx
      | cons o os iho =>
        intro m m' x h hx
        rw [foldlM_cons_except] at h
        by_cases ht : o.is_tree = true
        · rw [show mark_child_step ctx 0 m o = .error .fuel from by
              unfold mark_child_step; rw [if_pos ht]; rfl,
            except_bind_error] at h
          exact absurd h (by simp)
        · rw [show mark_child_step ctx 0 m o = .ok m from by
              unfold mark_child_step; rw [if_neg ht]; rfl,
            except_bind_ok] at h
          exact iho m m' x h hx
  | succ fuel ih =>
    have hP : ∀ (root : ObjectID) (m m' : MarkMap) (x : ObjectID),
        mark_used_object ctx (fuel + 1) root m = .ok m' →
        get_mark m x = true → get_mark m' x = true := by
      intro root m m' x h hx
      rw [mark_used_object_succ] at h
      cases hr : (ctx.read_tree_contents root).mapError GcError.read with
      | error e => rw [hr, except_bind_error] at h; exact absurd h (by simp)
      | ok tree =>
        rw [hr, except_bind_ok] at h
        exact ih.2 tree _ m' x h (get_mark_set_mark_mono root hx)
    refine ⟨hP, ?_⟩
    intro os
    induction os with
    | nil =>
      intro m m' x h hx
      rw [foldlM_nil_except] at h
      simp only [Except.ok.injEq] at h
      subst h
      exact hx
    | cons o os iho =>
      intro m m' x h hx
      rw [foldlM_cons_except] at h
      cases hs : mark_child_step ctx (fuel + 1) m o with
      | error e => rw [hs, except_bind_error] at h; exact absurd h (by simp)
      | ok m₁ =>
        rw [hs, except_bind_ok] at h
        have hx₁ : get_mark m₁ x = true := by
          unfold mark_child_step at hs
          by_cases ht : o.is_tree = true
          · rw [if_pos ht] at hs
            exact hP o.id _ m₁ x hs (get_mark_set_mark_mono o.id hx)
          · rw [if_neg ht] at hs
            replace hs : Except.ok m = Except.ok m₁ := hs
            simp only [Except.ok.injEq] at hs
            subst hs
            exact hx
        exact iho m₁ m' x h hx₁

/-- Marking preserves the no-duplicate-keys invariant of the mark
map. -/
theorem mark_nodup (ctx : Context) : ∀ fuel : Nat,
    (∀ (root : ObjectID) (m m' : MarkMap),
      mark_used_object ctx fuel root m = .ok m' →
      (m.map (·.1)).Nodup → (m'.map (·.1)).Nodup)
    ∧ (∀ (os : List Object) (m m' : MarkMap),
      os.foldlM (mark_child_step ctx fuel) m = .ok m' →
      (m.map (·.1)).Nodup → (m'.map (·.1)).Nodup) := by
  intro fuel
  induction fuel with
  | zero =>
    constructor
    · intro root m m' h
      rw [mark_used_object_zero] at h
      exact absurd h (by simp)
    · intro os
      induction os with
      | nil =>
        intro m m' h hnd
        rw [foldlM_nil_except] at h
        simp only [Except.ok.injEq] at h
        subst h
        exact hnd
      | cons o os iho =>
        intro m m' h hnd
        rw [foldlM_cons_except] at h
        by_cases ht : o.is_tree = true
        · rw [show mark_child_step ctx 0 m o = .error .fuel from by
              unfold mark_child_step; rw [if_pos ht]; rfl,
            except_bind_error] at h
          exact absurd h (by simp)
        · rw [show mark_child_step ctx 0 m o = .ok m from by
              unfold mark_child_step; rw [if_neg ht]; rfl,
            except_bind_ok] at h
          exact iho m m' h hnd
  | succ fuel ih =>
    have hP : ∀ (root : ObjectID) (m m' : MarkMap),
        mark_used_object ctx (fuel + 1) root m = .ok m' →
        (m.map (·.1)).Nodup → (m'.map (·.1)).Nodup := by
      intro root m m' h hnd
      rw [mark_used_object_succ] at h
      cases hr : (ctx.read_tree_contents root).mapError GcError.read with
      | error e => rw [hr, except_bind_error] at h; exact absurd h (by simp)
      | ok tree =>
        rw [hr, except_bind_ok] at h
        exact ih.2 tree _ m' h (set_mark_nodup root hnd)
    refine ⟨hP, ?_⟩
    intro os
    induction os with
    | nil =>
      intro m m' h hnd
      rw [foldlM_nil_except] at h
      simp only [Except.ok.injEq] at h
      subst h
      exact hnd
    | cons o os iho =>
      intro m m' h hnd
      rw [foldlM_cons_except] at h
      cases hs : mark_child_step ctx (fuel + 1) m o with
      | error e => rw [hs, except_bind_error] at h; exact absurd h (by simp)
      | ok m₁ =>
        rw [hs, except_bind_ok] at h
        have hnd₁ : (m₁.map (·.1)).Nodup := by
          unfold mark_child_step at hs
          by_cases ht : o.is_tree = true
          · rw [if_pos ht] at hs
            exact hP o.id _ m₁ hs (set_mark_nodup o.id hnd)
          · rw [if_neg ht] at hs
            replace hs : Except.ok m = Except.ok m₁ := hs
            simp only [Except.ok.injEq] at hs
            subst hs
            exact hnd
        exact iho m₁ m' h hnd₁

theorem mark_marks_root (ctx : Context) (fuel : Nat) (root : ObjectID) (m m' : MarkMap)
    (h : mark_used_object ctx fuel root m = .ok m') : get_mark m' root = true := by
  cases fuel with
  | zero => rw [mark_used_object_zero] at h; exact absurd h (by simp)
  | succ fuel =>
    rw [mark_used_object_succ] at h
    cases hr : (ctx.read_tree_contents root).mapError GcError.read with
    | error e => rw [hr, except_bind_error] at h; exact absurd h (by simp)
    | ok tree =>
      rw [hr, except_bind_ok] at h
      exact (mark_mono ctx fuel).2 tree _ m' root h (get_mark_set_mark_self m root)

theorem mark_fold_mem (ctx : Context) (fuel : Nat) :
    ∀ (os : List Object) (m m' : MarkMap),
      os.foldlM (mark_child_step ctx fuel) m = .ok m' →
      ∀ o ∈ os, o.is_tree = true →
        ∃ mA mB, mark_used_object ctx fuel o.id mA = .ok mB
          ∧ ∀ x, get_mark mB x = true → get_mark m' x = true := by
  intro os
  induction os with
  | nil => intro m m' _ o ho; simp at ho
  | cons o₀ os iho =>
    intro m m' h o ho ht
    rw [foldlM_cons_except] at h
    cases hs : mark_child_step ctx fuel m o₀ with
    | error e => rw [hs, except_bind_error] at h; exact absurd h (by simp)
    | ok m₁ =>
      rw [hs, except_bind_ok] at h
      rcases List.mem_cons.mp ho with rfl | ho'
      · unfold mark_child_step at hs
        rw [if_pos ht] at hs
        exact ⟨set_mark m o.id, m₁, hs,
          fun x hx => (mark_mono ctx fuel).2 os m₁ m' x h hx⟩
      · exact iho m₁ m' h o ho' ht

/-- Every id tree-reachable from the root of a successful mark call is
marked afterwards. -/
theorem mark_marks_reachable (ctx : Context) {a b : ObjectID} (hreach : TreeReach ctx a b) :
    ∀ (fuel : Nat) (m m' : MarkMap), mark_used_object ctx fuel a m = .ok m' →
      get_mark m' b = true := by
  induction hreach with
  | refl c => intro fuel m m' h; exact mark_marks_root ctx fuel c m m' h
  | @step a os o b hread hmem htree hsub ih =>
    intro fuel m m' h
    cases fuel with
    | zero => rw [mark_used_object_zero] at h; exact absurd h (by simp)
    | succ fuel =>
      rw [mark_used_object_succ] at h
      rw [show (ctx.read_tree_contents a).mapError GcError.read = .ok os from by
          rw [hread]; rfl,
        except_bind_ok] at h
      obtain ⟨mA, mB, hm, hmono⟩ := mark_fold_mem ctx fuel os _ m' h o hmem htree
      exact hmono b (ih fuel mA mB hm)

theorem store_lookup_erase_ne {st : Store} {k x : ObjectID} (h : ¬ k = x) :
    store_lookup (store_erase st k) x = store_lookup st x := by
  induction st with
  | nil => rfl
  | cons pr rest ih =>
    obtain ⟨i, p⟩ := pr
    by_cases hik : i = k
    · subst hik
      rw [show store_erase ((i, p) :: rest) i = store_erase rest i from by
          simp [store_erase]]
      rw [ih]
      unfold store_lookup
      rw [List.find?_cons_of_neg _ (by simp [h])]
    · rw [show store_erase ((i, p) :: rest) k = (i, p) :: store_erase rest k from by
          simp [store_erase, hik]]
      unfold store_lookup at ih ⊢
      by_cases hix : i = x
      · rw [List.find?_cons_of_pos _ (by simp [hix]), List.find?_cons_of_pos _ (by simp [hix])]
      · rw [List.find?_cons_of_neg _ (by simp [hix]), List.find?_cons_of_neg _ (by simp [hix])]
        exact ih

/-- The sweep never touches a loose entry whose id is only ever marked
`true` in the mark map. -/
theorem gc_sweep_keep : ∀ (marks : MarkMap) (loose : Store) (id : ObjectID),
    (∀ pr ∈ marks, pr.1 = id → pr.2 = true) →
    store_lookup (gc_sweep marks loose) id = store_lookup loose id := by
  intro marks
  induction marks with
  | nil => intro loose id _; rfl
  | cons pr rest ih =>
    intro loose id h
    obtain ⟨k, v⟩ := pr
    have hrest : ∀ pr' ∈ rest, pr'.1 = id → pr'.2 = true :=
      fun pr' hm => h pr' (List.mem_cons_of_mem _ hm)
    cases v with
    | true =>
      have hstep : gc_sweep ((k, true) :: rest) loose = gc_sweep rest loose := by
        unfold gc_sweep
        rw [List.foldl_cons]
        rfl
      rw [hstep]
      exact ih loose id hrest
    | false =>
      have hk : ¬ k = id := fun hkid =>
        absurd (h (k, false) (List.mem_cons_self _ _) hkid) (by simp)
      have hstep : gc_sweep ((k, false) :: rest) loose
          = gc_sweep rest (store_erase loose k) := by
        unfold gc_sweep
        rw [List.foldl_cons]
        rfl
      rw [hstep, ih (store_erase loose k) id hrest, store_lookup_erase_ne hk]

theorem get_mark_true_mem : ∀ (m : MarkMap) (id : ObjectID), get_mark m id = true →
    (m.map (·.1)).Nodup → ∀ pr ∈ m, pr.1 = id → pr.2 = true := by
  intro m
  induction m with
  | nil => intro id _ _ pr hpr; simp at hpr
  | cons pr₀ rest ih =>
    intro id h hnd pr hpr heq
    obtain ⟨k, v⟩ := pr₀
    simp only [List.map_cons] at hnd
    by_cases hk : k = id
    · have hv : v = true := by
        unfold get_mark at h
        rw [List.find?_cons_of_pos _ (by simp [hk])] at h
        exact h
      rcases List.mem_cons.mp hpr with rfl | hpr'
      · exact hv
      · exfalso
        have hmem : pr.1 ∈ rest.map (·.1) := List.mem_map_of_mem _ hpr'
        rw [heq, ← hk] at hmem
        exact (List.nodup_cons.mp hnd).1 hmem
    · have h' : get_mark rest id = true := by
        unfold get_mark at h
        rw [List.find?_cons_of_neg _ (by simp [hk])] at h
        exact h
      rcases List.mem_cons.mp hpr with rfl | hpr'
      · exact absurd heq (by simpa using hk)
      · exact ih id h' (List.nodup_cons.mp hnd).2 pr hpr' heq

theorem init_marks_nodup (ctx : Context) :
    ((ctx.list_object_ids.map (fun id => (id, false))).map (·.1)).Nodup := by
  have h : ∀ l : List ObjectID,
      ((l.map (fun id => (id, false))).map (fun pr : ObjectID × Bool => pr.1)) = l := by
    intro l
    induction l with
    | nil => rfl
    | cons a l ih => simp [ih]
  rw [h]
  unfold Context.list_object_ids
  exact List.nodup_dedup _

theorem foldlM_mark_refs_mono (ctx : Context) (fuel : Nat) :
    ∀ (refs : List ObjectRef) (m m' : MarkMap) (x : ObjectID),
      refs.foldlM (mark_ref_step ctx fuel) m = .ok m' →
      get_mark m x = true → get_mark m' x = true := by
  intro refs
  induction refs with
  | nil =>
    intro m m' x h hx
    rw [foldlM_nil_except] at h
    simp only [Except.ok.injEq] at h
    subst h
    exact hx
  | cons r rest ih =>
    intro m m' x h hx
    rw [foldlM_cons_except] at h
    cases hs : mark_ref_step ctx fuel m r with
    | error e => rw [hs, except_bind_error] at h; exact absurd h (by simp)
    | ok m₁ =>
      rw [hs, except_bind_ok] at h
      have hx₁ : get_mark m₁ x = true := by
        unfold mark_ref_step at hs
        replace hs : Except.bind ((ctx.deref_object_ref r).mapError GcError.read)
            (fun object_id => mark_used_object ctx fuel object_id m) = .ok m₁ := hs
        cases hd : (ctx.deref_object_ref r).mapError GcError.read with
        | error e => rw [hd, except_bind_error] at hs; exact absurd hs (by simp)
        | ok i =>
          rw [hd, except_bind_ok] at hs
          exact (mark_mono ctx fuel).1 i m m₁ x hs hx
      exact ih m₁ m' x h hx₁

theorem foldlM_mark_refs_nodup (ctx : Context) (fuel : Nat) :
    ∀ (refs : List ObjectRef) (m m' : MarkMap),
      refs.foldlM (mark_ref_step ctx fuel) m = .ok m' →
      (m.map (·.1)).Nodup → (m'.map (·.1)).Nodup := by
  intro refs
  induction refs with
  | nil =>
    intro m m' h hnd
    rw [foldlM_nil_except] at h
    simp only [Except.ok.injEq] at h
    subst h
    exact hnd
  | cons r rest ih =>
    intro m m' h hnd
    rw [foldlM_cons_except] at h
    cases hs : mark_ref_step ctx fuel m r with
    | error e => rw [hs, except_bind_error] at h; exact absurd h (by simp)
    | ok m₁ =>
      rw [hs, except_bind_ok] at h
      have hnd₁ : (m₁.map (·.1)).Nodup := by
        unfold mark_ref_step at hs
        replace hs : Except.bind ((ctx.deref_object_ref r).mapError GcError.read)
            (fun object_id => mark_used_object ctx fuel object_id m) = .ok m₁ := hs
        cases hd : (ctx.deref_object_ref r).mapError GcError.read with
        | error e => rw [hd, except_bind_error] at hs; exact absurd hs (by simp)
        | ok i =>
          rw [hd, except_bind_ok] at hs
          exact (mark_nodup ctx fuel).1 i m m₁ hs hnd
      exact ih m₁ m' h hnd₁

theorem foldlM_mark_refs_mem (ctx : Context) (fuel : Nat) {b : ObjectID} :
    ∀ (refs : List ObjectRef) (m m' : MarkMap) (r : ObjectRef) (s : ObjectID),
      refs.foldlM (mark_ref_step ctx fuel) m = .ok m' →
      r ∈ refs → ctx.deref_object_ref r = .ok s → TreeReach ctx s b →
      get_mark m' b = true := by
  intro refs
  induction refs with
  | nil => intro m m' r s _ hr; simp at hr
  | cons r₀ rest ih =>
    intro m m' r s h hr hderef hreach
    rw [foldlM_cons_except] at h
    cases hs : mark_ref_step ctx fuel m r₀ with
    | error e => rw [hs, except_bind_error] at h; exact absurd h (by simp)
    | ok m₁ =>
      rw [hs, except_bind_ok] at h
      rcases List.mem_cons.mp hr with rfl | hr'
      · unfold mark_ref_step at hs
        replace hs : Except.bind ((ctx.deref_object_ref r).mapError GcError.read)
            (fun object_id => mark_used_object ctx fuel object_id m) = .ok m₁ := hs
        rw [show (ctx.deref_object_ref r).mapError GcError.read = .ok s from by
            rw [hderef]; rfl,
          except_bind_ok] at hs
        exact foldlM_mark_refs_mono ctx fuel rest m₁ m' b h
          (mark_marks_reachable ctx hreach fuel m m₁ hs)
      · exact ih m₁ m' r s h hr' hderef hreach

theorem gc_run_def (fuel : Nat) (ctx : Context) (dry_run : Bool) :
    gc_run fuel ctx dry_run
      = Except.bind (ctx.read_head.mapError GcError.read) (fun head_object =>
          Except.bind (mark_used_object ctx fuel head_object
              (ctx.list_object_ids.map (fun id => (id, false)))) (fun objects₁ =>
            Except.bind (gc_mark_refs ctx fuel objects₁) (fun objects₂ =>
              Except.ok (if dry_run then ctx.loose else gc_sweep objects₂ ctx.loose,
                (objects₂.filter (fun pr => ¬ pr.2)).map (·.1))))) := rfl

/-- C2, amended: a successful non-dry-run GC preserves every loose
object that is tree-reachable from a seed (HEAD or a dereferenced named
reference) — the ids the mark phase actually marks.  (Ids occurring
only as file children of reachable trees are not marked and can be
swept; see the counterexample.) -/
theorem claim_C2_gc_preserves_tree_reachable (fuel : Nat) (ctx : Context)
    (st' : Store) (del : List ObjectID) (s b : ObjectID)
    (hrun : gc_run fuel ctx false = .ok (st', del))
    (hseed : ctx.read_head = .ok s
      ∨ ∃ r ∈ ctx.list_object_refs, ctx.deref_object_ref r = .ok s)
    (hreach : TreeReach ctx s b) :
    store_lookup st' b = store_lookup ctx.loose b := by
  rw [gc_run_def] at hrun
  cases hh : ctx.read_head with
  | error e =>
    rw [show ctx.read_head.mapError GcError.read = .error (.read e) from by rw [hh]; rfl,
      except_bind_error] at hrun
    exact absurd hrun (by simp)
  | ok head_object =>
    rw [show ctx.read_head.mapError GcError.read = .ok head_object from by rw [hh]; rfl,
      except_bind_ok] at hrun
    cases hm1 : mark_used_object ctx fuel head_object
        (ctx.list_object_ids.map (fun id => (id, false))) with
    | error e => rw [hm1, except_bind_error] at hrun; exact absurd hrun (by simp)
    | ok m₁ =>
      rw [hm1, except_bind_ok] at hrun
      cases hm2 : gc_mark_refs ctx fuel m₁ with
      | error e => rw [hm2, except_bind_error] at hrun; exact absurd hrun (by simp)
      | ok m₂ =>
        rw [hm2, except_bind_ok] at hrun
        replace hrun : Except.ok ((gc_sweep m₂ ctx.loose,
            (m₂.filter (fun pr => ¬ pr.2)).map (·.1)) : Store × List ObjectID)
            = .ok (st', del) := hrun
        simp only [Except.ok.injEq, Prod.mk.injEq] at hrun
        obtain ⟨hst, _⟩ := hrun
        have hmarked : get_mark m₂ b = true := by
          rcases hseed with hhead | ⟨r, hrmem, hrd⟩
          · have hs_eq : s = head_object := by
              have hcomb := hhead.symm.trans hh
              simpa using hcomb
            subst hs_eq
            have h₁ : get_mark m₁ b = true := mark_marks_reachable ctx hreach fuel _ m₁ hm1
            unfold gc_mark_refs at hm2
            exact foldlM_mark_refs_mono ctx fuel _ m₁ m₂ b hm2 h₁
          · unfold gc_mark_refs at hm2
            exact foldlM_mark_refs_mem ctx fuel _ m₁ m₂ r s hm2 hrmem hrd hreach
        have hnodup : (m₂.map (·.1)).Nodup := by
          have h0 := init_marks_nodup ctx
          have h1 := (mark_nodup ctx fuel).1 _ _ m₁ hm1 h0
          unfold gc_mark_refs at hm2
          exact foldlM_mark_refs_nodup ctx fuel _ m₁ m₂ hm2 h1
        rw [← hst]
        exact gc_sweep_keep m₂ ctx.loose b (get_mark_true_mem m₂ b hmarked hnodup)

/-- C2 as claimed is false: id `170` is contained in the tree reachable
from `HEAD` (as a file child) and has a loose file, yet a non-dry-run
GC sweeps it — the mark phase never marks file children. -/
theorem claim_C2_counterexample :
    c2_repo.read_head = .ok 187
    ∧ c2_repo.read_tree_contents 187 = .ok [⟨.file, 170, .path ["f"]⟩]
    ∧ store_lookup c2_repo.loose 170 = some "junk"
    ∧ gc_run 10 c2_repo false = .ok ([(187, "file\t00000000000000aa\tf\n")], [170])
    ∧ store_lookup [(187, "file\t00000000000000aa\tf\n")] 170 = none :=
  ⟨rfl, rfl, rfl, rfl, rfl⟩

/-- Witness for the amended C2 at the concrete store: the reachable
tree `187` survives the same GC run untouched. -/
theorem claim_C2_gc_preserves_tree_reachable_witness :
    store_lookup [(187, "file\t00000000000000aa\tf\n")] 187
      = store_lookup c2_repo.loose 187 :=
  claim_C2_gc_preserves_tree_reachable 10 c2_repo
    [(187, "file\t00000000000000aa\tf\n")] [170] 187 187
    (by rfl) (Or.inl (by rfl)) (TreeReach.refl 187)

set_option maxRecDepth 8000 in
/-- C1 fails on the code: building `c1_target` writes three tree
payloads whose basename sequences are `[f]`, `[z, m.txt]` and `[a]` —
the payload of directory `a` lists `z` before `m.txt`, which is not
strictly ascending, because the tree child is sorted under its stored
path `a/z` while the file child is sorted under `m.txt`. -/
theorem claim_C1_mixed_children_payload :
    (match parallel_build c1_repo c1_target with
      | .ok r => r.store.map (fun pr => payload_basenames pr.2)
      | .error _ => []) = [["f"], ["z", "m.txt"], ["a"]]
    ∧ strictly_ascending ["z", "m.txt"] = false := by
  exact ⟨rfl, rfl⟩

end Mtl
